import Mathlib

/-!
Verification of the unique-solution Sudoku engine of `js/sudoku.js`
(4x4, 6x6 and 9x9 grids).

The engine is shallowly embedded: a grid cell is `Option ℕ` (`none` is the
JS empty string `''`), a board is a list of rows, and the in-place mutation
of the JS code becomes explicit state passing (each function returns the
board it leaves behind).  `Math.random()` is modelled by an oracle
`g : ℕ → ℕ → ℕ`: `g t n` is the value of `rngInt(n)` at the `t`-th call of
the random source, and the draw counter `t` is threaded through every
definition exactly as the calls happen in the source.  The recursive
searches (`solveBoard`, the `backtrack` closure of `countSolutions`) are
given explicit fuel; the wrappers run them with fuel `numBlanks + 1`, which
is exactly the recursion depth of the JS functions (each recursive call
fills one blank cell), and fuel-irrelevance above that bound is proved.
-/

namespace JSGames.Sudoku

/-! ### Cells and boards -/

/-- A cell of the sudoku grid: `none` is the JS empty string `''`,
`some v` a placed number. -/
abbrev Cell := Option ℕ

/-- A board is a list of rows, mirroring the JS array of arrays. -/
abbrev Board := List (List Cell)

/-- `board[r][c]`, with `none` (blank) for out-of-range reads. -/
def getCell (b : Board) (r c : ℕ) : Cell := (b.getD r []).getD c none

/-- `board[r][c] = v` as a functional update (no-op out of range,
matching the fact that the JS code never writes out of range). -/
def setCell (b : Board) (r c : ℕ) (v : Cell) : Board :=
  b.set r ((b.getD r []).set c v)

/-- The board is a `size × size` matrix, as built by
`Array.from({length: size}, () => Array(size).fill(''))`. -/
def dims (b : Board) (size : ℕ) : Prop :=
  b.length = size ∧ ∀ row ∈ b, row.length = size

/-- The empty grid of `generateSolvedGrid`. -/
def emptyBoard (size : ℕ) : Board :=
  List.replicate size (List.replicate size (none : Cell))

/-! ### Basic list-update lemmas -/

theorem List.getD_set_self {α : Type} (l : List α) (i : ℕ) (v d : α)
    (h : i < l.length) : (l.set i v).getD i d = v := by
  induction l generalizing i with
  | nil => simp at h
  | cons x xs ih =>
    cases i with
    | zero => rfl
    | succ j => simpa using ih j (by simpa using h)

theorem List.getD_set_ne {α : Type} (l : List α) (i j : ℕ) (v d : α)
    (h : i ≠ j) : (l.set i v).getD j d = l.getD j d := by
  induction l generalizing i j with
  | nil => simp [List.set]
  | cons x xs ih =>
    cases i with
    | zero =>
      cases j with
      | zero => exact absurd rfl h
      | succ j2 => rfl
    | succ i2 =>
      cases j with
      | zero => rfl
      | succ j2 => simpa using ih i2 j2 (fun hh => h (by rw [hh]))

theorem List.set_of_length_le {α : Type} (l : List α) (i : ℕ) (v : α)
    (h : l.length ≤ i) : l.set i v = l := by
  induction l generalizing i with
  | nil => rfl
  | cons x xs ih =>
    cases i with
    | zero => simp at h
    | succ j => simpa using ih j (by simpa using h)

theorem List.set_getD_self {α : Type} (l : List α) (i : ℕ) (d : α)
    (h : i < l.length) : l.set i (l.getD i d) = l := by
  induction l generalizing i with
  | nil => simp at h
  | cons x xs ih =>
    cases i with
    | zero => rfl
    | succ j => simpa using ih j (by simpa using h)

/-! ### getCell / setCell lemmas -/

theorem length_setCell (b : Board) (r c : ℕ) (v : Cell) :
    (setCell b r c v).length = b.length := by
  simp [setCell]

theorem getCell_setCell_self (b : Board) (r c : ℕ) (v : Cell)
    (hr : r < b.length) (hc : c < (b.getD r []).length) :
    getCell (setCell b r c v) r c = v := by
  unfold getCell setCell
  rw [List.getD_set_self _ _ _ _ (by simpa using hr)]
  exact List.getD_set_self _ _ _ _ hc

theorem getCell_setCell_ne (b : Board) (r c r' c' : ℕ) (v : Cell)
    (h : (r, c) ≠ (r', c')) :
    getCell (setCell b r c v) r' c' = getCell b r' c' := by
  unfold getCell setCell
  by_cases hr : r = r'
  · subst hr
    have hc : c ≠ c' := fun hcc => h (by rw [hcc])
    by_cases hlen : r < b.length
    · rw [List.getD_set_self _ _ _ _ (by simpa using hlen)]
      exact List.getD_set_ne _ _ _ _ _ hc
    · rw [List.set_of_length_le _ _ _ (by omega)]
  · rw [List.getD_set_ne _ _ _ _ _ hr]

theorem List.getD_of_length_le {α : Type} (l : List α) (i : ℕ) (d : α)
    (h : l.length ≤ i) : l.getD i d = d := by
  induction l generalizing i with
  | nil => cases i <;> rfl
  | cons x xs ih =>
    cases i with
    | zero => simp at h
    | succ j => simpa using ih j (by simpa using h)

theorem List.getD_mem_of_lt {α : Type} (l : List α) (i : ℕ) (d : α)
    (h : i < l.length) : l.getD i d ∈ l := by
  induction l generalizing i with
  | nil => simp at h
  | cons x xs ih =>
    cases i with
    | zero => simp [List.getD]
    | succ j =>
      have : xs.getD j d ∈ xs := ih j (by simpa using h)
      simp only [List.getD_cons_succ]
      exact List.mem_cons_of_mem _ this

theorem setCell_setCell_self (b : Board) (r c : ℕ) (u v : Cell) :
    setCell (setCell b r c u) r c v = setCell b r c v := by
  unfold setCell
  by_cases hlen : r < b.length
  · rw [List.getD_set_self _ _ _ _ (by simpa using hlen), List.set_set,
      List.set_set]
  · have h1 : b.set r ((b.getD r []).set c u) = b :=
      List.set_of_length_le _ _ _ (by omega)
    rw [h1]

theorem setCell_getCell_self (b : Board) (r c : ℕ) :
    setCell b r c (getCell b r c) = b := by
  unfold setCell getCell
  by_cases hr : r < b.length
  · have hrow : (b.getD r []).set c ((b.getD r []).getD c none)
        = b.getD r [] := by
      by_cases hc : c < (b.getD r []).length
      · exact List.set_getD_self _ _ _ hc
      · exact List.set_of_length_le _ _ _ (by omega)
    rw [hrow]
    exact List.set_getD_self _ _ _ (by simpa using hr)
  · exact List.set_of_length_le _ _ _ (by omega)

theorem dims_setCell (b : Board) (size r c : ℕ) (v : Cell)
    (hd : dims b size) : dims (setCell b r c v) size := by
  by_cases hr : r < b.length
  · obtain ⟨hl, hrow⟩ := hd
    constructor
    · simpa [setCell] using hl
    · intro row hmem
      unfold setCell at hmem
      rcases List.mem_or_eq_of_mem_set hmem with h | h
      · exact hrow _ h
      · subst h
        rw [List.length_set]
        exact hrow _ (List.getD_mem_of_lt b r [] hr)
  · have heq : setCell b r c v = b := by
      unfold setCell
      exact List.set_of_length_le _ _ _ (by omega)
    rw [heq]
    exact hd

theorem getCell_dims_blank (b : Board) (size r c : ℕ) (hd : dims b size)
    (h : size ≤ r ∨ size ≤ c) : getCell b r c = none := by
  obtain ⟨hl, hrow⟩ := hd
  unfold getCell
  rcases h with h | h
  · have h1 : b.getD r [] = [] := List.getD_of_length_le b r [] (by omega)
    rw [h1]; rfl
  · by_cases hr : r < b.length
    · exact List.getD_of_length_le _ _ _
        (by rw [hrow _ (List.getD_mem_of_lt b r [] hr)]; omega)
    · have h1 : b.getD r [] = [] := List.getD_of_length_le b r [] (by omega)
      rw [h1]; rfl

/-! ### The cell grid in row-major order -/

/-- All coordinates of a `size × size` grid in row-major order:
the iteration order of every `for (r) for (c)` double loop of the source. -/
def cellsList (size : ℕ) : List (ℕ × ℕ) :=
  (List.range size).flatMap fun r => (List.range size).map fun c => (r, c)

theorem mem_cellsList {size : ℕ} {p : ℕ × ℕ} :
    p ∈ cellsList size ↔ p.1 < size ∧ p.2 < size := by
  cases p with
  | mk r c => simp [cellsList, List.mem_flatMap, List.mem_map, eq_comm]

theorem cellsList_nodup (size : ℕ) : (cellsList size).Nodup := by
  unfold cellsList
  rw [List.nodup_flatMap]
  constructor
  · intro r _
    exact List.Nodup.map (fun a b h => by simpa using congrArg Prod.snd h)
      (List.nodup_range _)
  · apply List.Pairwise.imp_of_mem (l := List.range size)
      (R := fun r1 r2 => r1 ≠ r2)
    · intro r1 r2 _ _ hne q hq1 hq2
      simp only [Function.onFun, List.mem_map] at hq1 hq2
      obtain ⟨c1, _, e1⟩ := hq1
      obtain ⟨c2, _, e2⟩ := hq2
      have h1 := congrArg Prod.fst e1
      have h2 := congrArg Prod.fst e2
      simp only at h1 h2
      exact hne (h1.trans h2.symm)
    · exact List.nodup_range size

theorem length_cellsList (size : ℕ) : (cellsList size).length = size * size := by
  simp [cellsList, List.length_flatMap, Function.comp_def, List.map_const]

/-- The number of blank cells of the `size × size` grid region. -/
def numBlanks (b : Board) (size : ℕ) : ℕ :=
  (cellsList size).countP fun p => decide (getCell b p.1 p.2 = none)

/-- Counting a predicate that flips from true to false at exactly one
element of a duplicate-free list drops the count by one. -/
theorem countP_flip {α : Type} (L : List α) (hnd : L.Nodup) (p : α)
    (hp : p ∈ L) (f f' : α → Bool) (hfp : f p = true) (hf'p : f' p = false)
    (hagree : ∀ q ∈ L, q ≠ p → f q = f' q) :
    L.countP f = L.countP f' + 1 := by
  induction L with
  | nil => simp at hp
  | cons x xs ih =>
    rcases List.mem_cons.1 hp with he | hm
    · subst he
      have hxs : xs.countP f = xs.countP f' := by
        apply List.countP_congr
        intro a ha
        rw [hagree a (List.mem_cons_of_mem _ ha) (by
          rintro rfl
          exact (List.nodup_cons.1 hnd).1 ha)]
      simp [List.countP_cons, hfp, hf'p, hxs]
    · have hx : x ≠ p := by
        rintro rfl
        exact (List.nodup_cons.1 hnd).1 hm
      have hrec := ih (List.nodup_cons.1 hnd).2 hm
        (fun q hq hqp => hagree q (List.mem_cons_of_mem _ hq) hqp)
      rw [List.countP_cons, List.countP_cons, hrec,
        hagree x (List.mem_cons_self _ _) hx]
      omega

/-- In-range cell reads are reads of the underlying row entry, so an
in-range `setCell` really stores the value. -/
theorem getCell_setCell_self_dims (b : Board) (size r c : ℕ) (v : Cell)
    (hd : dims b size) (hr : r < size) (hc : c < size) :
    getCell (setCell b r c v) r c = v := by
  obtain ⟨hl, hrow⟩ := hd
  apply getCell_setCell_self
  · omega
  · rw [hrow _ (List.getD_mem_of_lt b r [] (by omega))]
    exact hc

/-- Setting a blank in-range cell to a number decreases the blank count by one. -/
theorem numBlanks_setCell (b : Board) (size r c n : ℕ)
    (hr : r < size) (hc : c < size) (hb : getCell b r c = none)
    (hd : dims b size) :
    numBlanks b size = numBlanks (setCell b r c (some n)) size + 1 := by
  unfold numBlanks
  apply countP_flip (cellsList size) (cellsList_nodup size) (r, c)
    (mem_cellsList.2 ⟨hr, hc⟩)
  · simpa using hb
  · simp [getCell_setCell_self_dims b size r c (some n) hd hr hc]
  · intro q _ hq
    have := getCell_setCell_ne b r c q.1 q.2 (some n)
      (by intro he; exact hq (by cases q; simpa [Prod.ext_iff] using he.symm))
    simp [this]

/-! ### Randomness oracle and the Fisher–Yates shuffle of the source -/

/-- Oracle for `Math.random`: `g t n` is the result of `rngInt(n)`
(`Math.floor(Math.random() * n)`) at the `t`-th draw of the run.  A real
run always has `g t n < n`; none of the theorems below need that bound. -/
abbrev RNG := ℕ → ℕ → ℕ

/-- `[arr[i], arr[j]] = [arr[j], arr[i]]`, as a pure list operation
(identity when an index is out of range, which cannot happen in a real run). -/
def swapL {α : Type} (l : List α) (i j : ℕ) : List α :=
  match l[i]?, l[j]? with
  | some a, some b => (l.set i b).set j a
  | _, _ => l

theorem cons_perm_set {α : Type} (x b : α) (tl : List α) (m : ℕ)
    (h : tl[m]? = some b) : (x :: tl).Perm (b :: tl.set m x) := by
  induction tl generalizing m with
  | nil => simp at h
  | cons y tt ih =>
    cases m with
    | zero =>
      simp only [List.getElem?_cons_zero, Option.some.injEq] at h
      subst h
      simpa using List.Perm.swap y x tt
    | succ m =>
      simp only [List.getElem?_cons_succ] at h
      have h1 : (x :: y :: tt).Perm (y :: x :: tt) := List.Perm.swap y x tt
      have h2 : (y :: x :: tt).Perm (y :: b :: tt.set m x) :=
        List.Perm.cons y (ih m h)
      have h3 : (y :: b :: tt.set m x).Perm (b :: y :: tt.set m x) :=
        List.Perm.swap b y (tt.set m x)
      simpa using (h1.trans h2).trans h3

theorem set_set_perm {α : Type} (l : List α) (i j : ℕ) (a b : α)
    (hi : l[i]? = some a) (hj : l[j]? = some b) :
    ((l.set i b).set j a).Perm l := by
  induction l generalizing i j with
  | nil => simp at hi
  | cons x tl ih =>
    cases i with
    | zero =>
      simp only [List.getElem?_cons_zero, Option.some.injEq] at hi
      subst hi
      cases j with
      | zero =>
        simp only [List.getElem?_cons_zero, Option.some.injEq] at hj
        subst hj
        simp
      | succ m =>
        simp only [List.getElem?_cons_succ] at hj
        simpa using (cons_perm_set x b tl m hj).symm
    | succ k =>
      simp only [List.getElem?_cons_succ] at hi
      cases j with
      | zero =>
        simp only [List.getElem?_cons_zero, Option.some.injEq] at hj
        subst hj
        simpa using (cons_perm_set x a tl k hi).symm
      | succ m =>
        simp only [List.getElem?_cons_succ] at hj
        simpa using List.Perm.cons x (ih k m hi hj)

theorem swapL_perm {α : Type} (l : List α) (i j : ℕ) : (swapL l i j).Perm l := by
  unfold swapL
  split
  · next a b hi hj => exact set_set_perm l i j a b hi hj
  · exact List.Perm.refl l

/-- The loop of `shuffle`: `i` counts down, `t` is the draw counter. -/
def shuffleAux {α : Type} (g : RNG) : ℕ → ℕ → List α → List α × ℕ
  | t, 0, l => (l, t)
  | t, i + 1, l => shuffleAux g (t + 1) i (swapL l (i + 1) (g t (i + 2)))

/-- `shuffle(arr)` of the source: in-place Fisher–Yates driven by `rngInt`. -/
def shuffle {α : Type} (g : RNG) (t : ℕ) (l : List α) : List α × ℕ :=
  shuffleAux g t (l.length - 1) l

theorem shuffleAux_perm {α : Type} (g : RNG) (i : ℕ) :
    ∀ (t : ℕ) (l : List α), ((shuffleAux g t i l).1).Perm l := by
  induction i with
  | zero => intro t l; exact List.Perm.refl l
  | succ i ih =>
    intro t l
    exact List.Perm.trans (ih (t + 1) (swapL l (i + 1) (g t (i + 2))))
      (swapL_perm l (i + 1) (g t (i + 2)))

theorem shuffle_perm {α : Type} (g : RNG) (t : ℕ) (l : List α) :
    ((shuffle g t l).1).Perm l :=
  shuffleAux_perm g (l.length - 1) t l

theorem mem_shuffle {α : Type} (g : RNG) (t : ℕ) (l : List α) (x : α) :
    x ∈ (shuffle g t l).1 ↔ x ∈ l :=
  (shuffle_perm g t l).mem_iff

/-! ### Box dimensions and the legality predicate -/

/-- `getBoxDims` of the source.  `boxCols` is `size / r` with JS real
division, hence a rational; it is a natural number exactly for the
supported sizes (4 → (2,2), 6 → (2,3), 9 → (3,3)). -/
def getBoxDims (size : ℕ) : ℕ × ℚ :=
  if size = 6 then (2, 3)
  else (Nat.sqrt size, (size : ℚ) / (Nat.sqrt size : ℚ))

/-- The engine passes `boxCols` around as an array index bound, so all
internal definitions receive it as a natural number; this bridge is exact
whenever `(getBoxDims size).2` is integral (all supported sizes). -/
def boxColsNat (size : ℕ) : ℕ := ((getBoxDims size).2).num.toNat

/-- `isValid(board, row, col, num, size, boxRows, boxCols)` of the source:
`num` clashes with no cell of the same row, column, or box
(box origin `row - row % boxRows`, `col - col % boxCols`). -/
def isValid (b : Board) (row col num size boxRows boxCols : ℕ) : Bool :=
  ((List.range size).all fun i =>
    !(getCell b row i == some num) && !(getCell b i col == some num)) &&
  ((List.range boxRows).all fun r =>
    (List.range boxCols).all fun c =>
      !(getCell b (row - row % boxRows + r) (col - col % boxCols + c) == some num))

/-- Propositional reading of `isValid`. -/
def validAt (b : Board) (row col num size boxRows boxCols : ℕ) : Prop :=
  (∀ i < size, getCell b row i ≠ some num ∧ getCell b i col ≠ some num) ∧
  ∀ r < boxRows, ∀ c < boxCols,
    getCell b (row - row % boxRows + r) (col - col % boxCols + c) ≠ some num

theorem isValid_iff (b : Board) (row col num size boxRows boxCols : ℕ) :
    isValid b row col num size boxRows boxCols = true ↔
    validAt b row col num size boxRows boxCols := by
  simp [isValid, validAt, List.all_eq_true]

/-- The candidate list of a blank cell, in increasing order: the `opts`
array built by the `for (n = 1; n <= size; n++)` loop of `countSolutions`. -/
def candidates (b : Board) (r c size boxRows boxCols : ℕ) : List ℕ :=
  (List.range size).filterMap fun k =>
    if isValid b r c (k + 1) size boxRows boxCols then some (k + 1) else none

theorem mem_candidates (b : Board) (r c size boxRows boxCols n : ℕ) :
    n ∈ candidates b r c size boxRows boxCols ↔
    1 ≤ n ∧ n ≤ size ∧ isValid b r c n size boxRows boxCols = true := by
  simp only [candidates, List.mem_filterMap, List.mem_range]
  constructor
  · rintro ⟨k, hk, hif⟩
    by_cases h : isValid b r c (k + 1) size boxRows boxCols = true
    · rw [if_pos h] at hif
      cases hif
      exact ⟨by omega, by omega, h⟩
    · rw [if_neg h] at hif
      cases hif
  · rintro ⟨h1, h2, hv⟩
    refine ⟨n - 1, by omega, ?_⟩
    have : n - 1 + 1 = n := by omega
    rw [this, if_pos hv]

/-- The numbers `1..size`: `[...Array(size)].map((_, i) => i + 1)`. -/
def natsOneTo (size : ℕ) : List ℕ := (List.range size).map (· + 1)

theorem mem_natsOneTo (size n : ℕ) :
    n ∈ natsOneTo size ↔ 1 ≤ n ∧ n ≤ size := by
  simp only [natsOneTo, List.mem_map, List.mem_range]
  constructor
  · rintro ⟨k, hk, rfl⟩; omega
  · rintro ⟨h1, h2⟩; exact ⟨n - 1, by omega, by omega⟩

/-! ### The solver (`solveBoard`): first-solution backtracking -/

/-- Row-major scan of `solveBoard` for the first blank cell. -/
def firstEmptyAux (b : Board) : List (ℕ × ℕ) → Option (ℕ × ℕ)
  | [] => none
  | p :: rest =>
    if getCell b p.1 p.2 = none then some p else firstEmptyAux b rest

def firstEmpty (b : Board) (size : ℕ) : Option (ℕ × ℕ) :=
  firstEmptyAux b (cellsList size)

/-- The candidate loop of `solveBoard`: place, recurse, un-place on failure.
Result is `(board, success, draw counter)`.  `f` is the recursive call at
one less fuel. -/
def tryNums (f : ℕ → Board → Board × Bool × ℕ) (size boxRows boxCols r c : ℕ) :
    List ℕ → ℕ → Board → Board × Bool × ℕ
  | [], t, b => (b, false, t)
  | n :: rest, t, b =>
    if isValid b r c n size boxRows boxCols then
      if (f t (setCell b r c (some n))).2.1 then f t (setCell b r c (some n))
      else tryNums f size boxRows boxCols r c rest
        (f t (setCell b r c (some n))).2.2
        (setCell (f t (setCell b r c (some n))).1 r c none)
    else tryNums f size boxRows boxCols r c rest t b

/-- `solveBoard` with explicit fuel (the JS recursion depth is the number
of blank cells, and the wrapper `solveBoard` supplies exactly that). -/
def solveBoardF (g : RNG) (size boxRows boxCols : ℕ) :
    ℕ → ℕ → Board → Board × Bool × ℕ
  | 0, t, b => (b, false, t)
  | fuel + 1, t, b =>
    match firstEmpty b size with
    | none => (b, true, t)
    | some p =>
      tryNums (solveBoardF g size boxRows boxCols fuel) size boxRows boxCols
        p.1 p.2 (shuffle g t (natsOneTo size)).1
        (shuffle g t (natsOneTo size)).2 b

/-- `solveBoard(board, size, boxRows, boxCols)` of the source. -/
def solveBoard (g : RNG) (t : ℕ) (b : Board) (size boxRows boxCols : ℕ) :
    Board × Bool × ℕ :=
  solveBoardF g size boxRows boxCols (numBlanks b size + 1) t b

/-! ### The solution counter (`countSolutions`): bounded MRV backtracking -/

/-- The MRV scan of `backtrack`, linearised over the row-major cell list.
`none` means a blank cell with zero candidates was hit (dead end);
`some none` means no blank cell was seen; `some (some (r, c, opts))` is the
chosen most-constrained blank cell.  The scan stops at the first cell whose
candidate list is a singleton, exactly like the double `break` of the
source. -/
def scanFrom (b : Board) (size boxRows boxCols : ℕ) :
    List (ℕ × ℕ) → Option (ℕ × ℕ × List ℕ) → Option (Option (ℕ × ℕ × List ℕ))
  | [], best => some best
  | p :: rest, best =>
    if getCell b p.1 p.2 = none then
      let opts := candidates b p.1 p.2 size boxRows boxCols
      if opts.isEmpty then none
      else
        match best with
        | none =>
          if opts.length = 1 then some (some (p.1, p.2, opts))
          else scanFrom b size boxRows boxCols rest (some (p.1, p.2, opts))
        | some best1 =>
          if opts.length < best1.2.2.length then
            if opts.length = 1 then some (some (p.1, p.2, opts))
            else scanFrom b size boxRows boxCols rest (some (p.1, p.2, opts))
          else scanFrom b size boxRows boxCols rest (some best1)
    else scanFrom b size boxRows boxCols rest best

/-- The candidate loop of `backtrack`: place, recurse, un-place, stopping
as soon as the running count reaches the limit.  `f` is the recursive
call at one less fuel; state is `(board, count, draw counter)`. -/
def goCands (f : ℕ → Board → ℕ → Board × ℕ × ℕ) (limit r c : ℕ) :
    List ℕ → ℕ → Board → ℕ → Board × ℕ × ℕ
  | [], t, b, count => (b, count, t)
  | n :: rest, t, b, count =>
    if count < limit then
      goCands f limit r c rest (f t (setCell b r c (some n)) count).2.2
        (setCell (f t (setCell b r c (some n)) count).1 r c none)
        (f t (setCell b r c (some n)) count).2.1
    else (b, count, t)

/-- The `backtrack` closure of `countSolutions`, with explicit fuel. -/
def backtrackF (g : RNG) (size boxRows boxCols limit : ℕ) :
    ℕ → ℕ → Board → ℕ → Board × ℕ × ℕ
  | 0, t, b, count => (b, count, t)
  | fuel + 1, t, b, count =>
    if limit ≤ count then (b, count, t)
    else
      match scanFrom b size boxRows boxCols (cellsList size) none with
      | none => (b, count, t)
      | some none => (b, count + 1, t)
      | some (some (r, c, opts)) =>
        goCands (backtrackF g size boxRows boxCols limit fuel) limit r c
          (shuffle g t opts).1 (shuffle g t opts).2 b count

/-- One full run of the `backtrack` closure (board, final count, counter). -/
def countSolutionsRun (g : RNG) (t : ℕ) (b : Board)
    (size boxRows boxCols limit : ℕ) : Board × ℕ × ℕ :=
  backtrackF g size boxRows boxCols limit (numBlanks b size + 1) t b 0

/-- `countSolutions(board, size, boxRows, boxCols, limit)` of the source:
the count the run returns. -/
def countSolutions (g : RNG) (t : ℕ) (b : Board)
    (size boxRows boxCols limit : ℕ) : ℕ :=
  (countSolutionsRun g t b size boxRows boxCols limit).2.1

/-! ### Puzzle generation -/

/-- The inner `for (n of nums)` loop of the seeding step of
`generateSolvedGrid`: place the first legal value and stop. -/
def placeFirstValid (b : Board) (row col size boxRows boxCols : ℕ) :
    List ℕ → Board
  | [] => b
  | n :: rest =>
    if isValid b row col n size boxRows boxCols then setCell b row col (some n)
    else placeFirstValid b row col size boxRows boxCols rest

/-- The seeding loop of `generateSolvedGrid`: a few random legal entries.
The first argument counts the remaining iterations. -/
def seedLoop (g : RNG) (size boxRows boxCols : ℕ) : ℕ → ℕ → Board → Board × ℕ
  | 0, t, b => (b, t)
  | i + 1, t, b =>
    let row := g t size
    let col := g (t + 1) size
    if getCell b row col = none then
      let st := shuffle g (t + 2) (natsOneTo size)
      seedLoop g size boxRows boxCols i st.2
        (placeFirstValid b row col size boxRows boxCols st.1)
    else seedLoop g size boxRows boxCols i (t + 2) b

/-- `generateSolvedGrid(size)` of the source: seed, solve, and fall back to
solving the empty grid when the seeded solve fails. -/
def generateSolvedGrid (g : RNG) (t : ℕ) (size : ℕ) : Board × ℕ :=
  let boxRows := (getBoxDims size).1
  let boxCols := boxColsNat size
  let sl := seedLoop g size boxRows boxCols (min size 6) t (emptyBoard size)
  let res := solveBoard g sl.2 sl.1 size boxRows boxCols
  if res.2.1 then (res.1, res.2.2)
  else
    let res2 := solveBoard g res.2.2 (emptyBoard size) size boxRows boxCols
    (res2.1, res2.2.2)

/-- `tryRemove` of `generateUniquePuzzle`: blank a non-blank cell and record
`[rr, cc, oldValue]` on the `removed` list. -/
def tryRemove (st : Board × List (ℕ × ℕ × Cell)) (rr cc : ℕ) :
    Board × List (ℕ × ℕ × Cell) :=
  if getCell st.1 rr cc = none then st
  else (setCell st.1 rr cc none, st.2 ++ [(rr, cc, getCell st.1 rr cc)])

/-- The revert loop `for (const [rr, cc, val] of removed) puzzle[rr][cc] = val`. -/
def revert (b : Board) (removed : List (ℕ × ℕ × Cell)) : Board :=
  removed.foldl (fun acc e => setCell acc e.1 e.2.1 e.2.2) b

/-- The mutable state of the carving loop of `generateUniquePuzzle`:
the puzzle, the `seen` set of settled cells, the blank counter, and the
draw counter of the randomness oracle. -/
structure CarveState where
  puzzle : Board
  seen : List (ℕ × ℕ)
  blanks : ℕ
  t : ℕ

/-- One iteration of the carving loop at coordinate `rc`: skip blank or
settled cells, tentatively blank the cell and its point-symmetric partner,
count solutions with limit 2, and revert when the result is ≥ 2. -/
def carveStep (g : RNG) (size boxRows boxCols : ℕ) (s : CarveState)
    (rc : ℕ × ℕ) : CarveState :=
  let r := rc.1
  let c := rc.2
  if getCell s.puzzle r c = none then s
  else
    let pr := size - 1 - r
    let pc := size - 1 - c
    let pairDifferent : Bool := decide (pr ≠ r) || decide (pc ≠ c)
    if (r, c) ∈ s.seen ∨ (pairDifferent = true ∧ (pr, pc) ∈ s.seen) then s
    else
      let st1 := tryRemove (s.puzzle, []) r c
      let st2 := if pairDifferent then tryRemove st1 pr pc else st1
      let run := countSolutionsRun g s.t st2.1 size boxRows boxCols 2
      let seen2 :=
        if pairDifferent then (pr, pc) :: (r, c) :: s.seen
        else (r, c) :: s.seen
      if 2 ≤ run.2.1 then
        { puzzle := revert st2.1 st2.2, seen := seen2, blanks := s.blanks,
          t := run.2.2 }
      else
        { puzzle := st2.1, seen := seen2, blanks := s.blanks + st2.2.length,
          t := run.2.2 }

/-- The carving loop: iterate over the shuffled positions while the blank
counter is below the target. -/
def carveLoop (g : RNG) (size boxRows boxCols target : ℕ) :
    List (ℕ × ℕ) → CarveState → CarveState
  | [], s => s
  | rc :: rest, s =>
    if s.blanks < target then
      carveLoop g size boxRows boxCols target rest
        (carveStep g size boxRows boxCols s rc)
    else s

/-- `Math.floor(size * size * 0.6)`: for the supported sizes 4, 6, 9 the
double rounding of `0.6` yields exactly `⌊size² · 6 / 10⌋` (9, 21, 48). -/
def targetBlanksOf (size : ℕ) : ℕ := size * size * 6 / 10

/-- `generateUniquePuzzle(size)` of the source, returning the carved
puzzle, the stored full solution (the module-level `solution` global),
and the final draw counter. -/
def generateUniquePuzzle (g : RNG) (t : ℕ) (size : ℕ) : Board × Board × ℕ :=
  let boxRows := (getBoxDims size).1
  let boxCols := boxColsNat size
  let gs := generateSolvedGrid g t size
  let shp := shuffle g gs.2 (cellsList size)
  let final := carveLoop g size boxRows boxCols (targetBlanksOf size) shp.1
    { puzzle := gs.1, seen := [], blanks := 0, t := shp.2 }
  (final.puzzle, gs.1, final.t)

/-- The saved-game size guard of `loadSavedGame`
(`if (size !== 4 && size !== 6 && size !== 9) return false`): whether a
saved puzzle of this size is accepted for loading. -/
def loadSizeValid (size : ℕ) : Bool :=
  !(decide (size ≠ 4) && decide (size ≠ 6) && decide (size ≠ 9))

/-! ### Specification side: constraints, legality, and exact solution count -/

/-- The box origin used by the source: `x - x % k`. -/
def boxStart (x k : ℕ) : ℕ := x - x % k

/-- Two coordinates lie in a common unit (row, column or box). -/
def sameUnit (boxRows boxCols : ℕ) (p q : ℕ × ℕ) : Prop :=
  p.1 = q.1 ∨ p.2 = q.2 ∨
    (boxStart p.1 boxRows = boxStart q.1 boxRows ∧
     boxStart p.2 boxCols = boxStart q.2 boxCols)

instance (boxRows boxCols : ℕ) (p q : ℕ × ℕ) :
    Decidable (sameUnit boxRows boxCols p q) := by
  unfold sameUnit; infer_instance

/-- No two distinct cells of a common unit hold the same value. -/
def consistentOK (b : Board) (size boxRows boxCols : ℕ) : Prop :=
  ∀ p ∈ cellsList size, ∀ q ∈ cellsList size, p ≠ q →
    sameUnit boxRows boxCols p q →
    getCell b p.1 p.2 = none ∨ getCell b p.1 p.2 ≠ getCell b q.1 q.2

/-- A cell is blank or holds a value in `[1, size]`. -/
def cellInRange (x : Cell) (size : ℕ) : Prop :=
  match x with
  | none => True
  | some v => 1 ≤ v ∧ v ≤ size

instance (x : Cell) (size : ℕ) : Decidable (cellInRange x size) :=
  match x with
  | none => isTrue trivial
  | some v => inferInstanceAs (Decidable (1 ≤ v ∧ v ≤ size))

/-- All filled cells hold values in `[1, size]`. -/
def inRangeOK (b : Board) (size : ℕ) : Prop :=
  ∀ p ∈ cellsList size, cellInRange (getCell b p.1 p.2) size

/-- A well-formed partial grid: a `size × size` board whose filled cells
are mutually consistent and in range. -/
def okBoard (b : Board) (size boxRows boxCols : ℕ) : Prop :=
  dims b size ∧ consistentOK b size boxRows boxCols ∧ inRangeOK b size

/-- A valid size/box decomposition (a precondition on the supported sizes,
`boxRows * boxCols = size` with both factors positive). -/
def sizeBoxOk (size boxRows boxCols : ℕ) : Prop :=
  0 < boxRows ∧ 0 < boxCols ∧ boxRows * boxCols = size

instance (b : Board) (size : ℕ) : Decidable (dims b size) := by
  unfold dims; infer_instance

instance (b : Board) (size boxRows boxCols : ℕ) :
    Decidable (consistentOK b size boxRows boxCols) := by
  unfold consistentOK; infer_instance

instance (b : Board) (size : ℕ) : Decidable (inRangeOK b size) := by
  unfold inRangeOK; infer_instance

instance (b : Board) (size boxRows boxCols : ℕ) :
    Decidable (okBoard b size boxRows boxCols) := by
  unfold okBoard; infer_instance

instance (size boxRows boxCols : ℕ) :
    Decidable (sizeBoxOk size boxRows boxCols) := by
  unfold sizeBoxOk; infer_instance

/-- Every cell of the grid region is filled. -/
def boardFullP (b : Board) (size : ℕ) : Prop :=
  ∀ p ∈ cellsList size, getCell b p.1 p.2 ≠ none

instance (b : Board) (size : ℕ) : Decidable (boardFullP b size) := by
  unfold boardFullP; infer_instance

/-- The cells of row `r`. -/
def rowCellsL (size r : ℕ) : List (ℕ × ℕ) :=
  (List.range size).map fun c => (r, c)

/-- The cells of column `c`. -/
def colCellsL (size c : ℕ) : List (ℕ × ℕ) :=
  (List.range size).map fun r => (r, c)

/-- The cells of the box with origin `(i * boxRows, j * boxCols)`. -/
def boxCellsL (boxRows boxCols i j : ℕ) : List (ℕ × ℕ) :=
  (List.range boxRows).flatMap fun dr =>
    (List.range boxCols).map fun dc => (i * boxRows + dr, j * boxCols + dc)

/-- Every row, column and box of the grid. -/
def unitsList (size boxRows boxCols : ℕ) : List (List (ℕ × ℕ)) :=
  ((List.range size).map (rowCellsL size)) ++
  ((List.range size).map (colCellsL size)) ++
  ((List.range (size / boxRows)).flatMap fun i =>
    (List.range (size / boxCols)).map fun j => boxCellsL boxRows boxCols i j)

/-- How many cells of `u` hold the value `v`. -/
def countIn (b : Board) (u : List (ℕ × ℕ)) (v : ℕ) : ℕ :=
  u.countP fun p => decide (getCell b p.1 p.2 = some v)

/-- The board is a complete legal grid: every row, column and box contains
each of `1..size` exactly once. -/
def legalFull (b : Board) (size boxRows boxCols : ℕ) : Prop :=
  ∀ u ∈ unitsList size boxRows boxCols, ∀ k ∈ List.range size,
    countIn b u (k + 1) = 1

instance (b : Board) (size boxRows boxCols : ℕ) :
    Decidable (legalFull b size boxRows boxCols) := by
  unfold legalFull; infer_instance

/-- All ways of filling the blank cells among `L` with values `1..size`. -/
def completionsAux (size : ℕ) : List (ℕ × ℕ) → Board → List Board
  | [], b => [b]
  | p :: rest, b =>
    if getCell b p.1 p.2 = none then
      (List.range size).flatMap fun k =>
        completionsAux size rest (setCell b p.1 p.2 (some (k + 1)))
    else completionsAux size rest b

/-- All ways of filling the blank cells of the grid region. -/
def allCompletions (b : Board) (size : ℕ) : List Board :=
  completionsAux size (cellsList size) b

/-- The exact number of legal completions of the partial grid `b` — the
`k` against which the bounded counter is verified. -/
def numSolutions (b : Board) (size boxRows boxCols : ℕ) : ℕ :=
  (allCompletions b size).countP fun s =>
    decide (legalFull s size boxRows boxCols)

/-- `s` extends `b`: every filled cell of `b` is filled identically in `s`. -/
def extendsB (s b : Board) : Prop :=
  ∀ r c v, getCell b r c = some v → getCell s r c = some v

/-- `s` is a legal completion of `b` of the given geometry. -/
def solutionOf (s b : Board) (size boxRows boxCols : ℕ) : Prop :=
  dims s size ∧ extendsB s b ∧ legalFull s size boxRows boxCols

/-! ### Geometry of units -/

theorem boxStart_eq_mul (x k : ℕ) : boxStart x k = k * (x / k) := by
  unfold boxStart
  have h := Nat.mod_add_div x k
  omega

theorem boxStart_mul_add (i k d : ℕ) (hd : d < k) :
    boxStart (i * k + d) k = i * k := by
  unfold boxStart
  have h1 : (i * k + d) % k = d % k := by
    rw [mul_comm]
    exact Nat.mul_add_mod k i d
  have h2 : d % k = d := Nat.mod_eq_of_lt hd
  omega

theorem boxStart_decomp (x k : ℕ) (hk : 0 < k) :
    x = boxStart x k + x % k ∧ x % k < k := by
  unfold boxStart
  have h1 := Nat.mod_lt x hk
  have h2 := Nat.mod_le x k
  omega

theorem mem_rowCellsL {size r : ℕ} {p : ℕ × ℕ} :
    p ∈ rowCellsL size r ↔ p.1 = r ∧ p.2 < size := by
  cases p with
  | mk a b =>
    simp only [rowCellsL, List.mem_map, List.mem_range, Prod.mk.injEq]
    constructor
    · rintro ⟨c, hc, rfl, rfl⟩; exact ⟨rfl, hc⟩
    · rintro ⟨rfl, hb⟩; exact ⟨b, hb, rfl, rfl⟩

theorem mem_colCellsL {size c : ℕ} {p : ℕ × ℕ} :
    p ∈ colCellsL size c ↔ p.2 = c ∧ p.1 < size := by
  cases p with
  | mk a b =>
    simp only [colCellsL, List.mem_map, List.mem_range, Prod.mk.injEq]
    constructor
    · rintro ⟨r, hr, rfl, rfl⟩; exact ⟨rfl, hr⟩
    · rintro ⟨rfl, ha⟩; exact ⟨a, ha, rfl, rfl⟩

theorem mem_boxCellsL {br bc i j : ℕ} {p : ℕ × ℕ} :
    p ∈ boxCellsL br bc i j ↔
    ∃ dr, dr < br ∧ ∃ dc, dc < bc ∧ p = (i * br + dr, j * bc + dc) := by
  simp only [boxCellsL, List.mem_flatMap, List.mem_map, List.mem_range]
  constructor
  · rintro ⟨dr, hdr, q, hq, rfl⟩
    exact ⟨dr, hdr, q, hq, rfl⟩
  · rintro ⟨dr, hdr, dc, hdc, rfl⟩
    exact ⟨dr, hdr, dc, hdc, rfl⟩

theorem mem_unitsList {size br bc : ℕ} {u : List (ℕ × ℕ)} :
    u ∈ unitsList size br bc ↔
    (∃ r, r < size ∧ u = rowCellsL size r) ∨
    (∃ c, c < size ∧ u = colCellsL size c) ∨
    (∃ i, i < size / br ∧ ∃ j, j < size / bc ∧ u = boxCellsL br bc i j) := by
  simp only [unitsList, List.mem_append, List.mem_map, List.mem_flatMap,
    List.mem_range]
  constructor
  · rintro ((⟨r, hr, rfl⟩ | ⟨c, hc, rfl⟩) | ⟨i, hi, j, hj, rfl⟩)
    · exact Or.inl ⟨r, hr, rfl⟩
    · exact Or.inr (Or.inl ⟨c, hc, rfl⟩)
    · exact Or.inr (Or.inr ⟨i, hi, j, hj, rfl⟩)
  · rintro (⟨r, hr, rfl⟩ | ⟨c, hc, rfl⟩ | ⟨i, hi, j, hj, rfl⟩)
    · exact Or.inl (Or.inl ⟨r, hr, rfl⟩)
    · exact Or.inl (Or.inr ⟨c, hc, rfl⟩)
    · exact Or.inr ⟨i, hi, j, hj, rfl⟩

theorem length_unit {size br bc : ℕ} {u : List (ℕ × ℕ)}
    (hs : sizeBoxOk size br bc) (hu : u ∈ unitsList size br bc) :
    u.length = size := by
  obtain ⟨hbr, hbc, hmul⟩ := hs
  rcases mem_unitsList.1 hu with ⟨r, _, rfl⟩ | ⟨c, _, rfl⟩ | ⟨i, _, j, _, rfl⟩
  · simp [rowCellsL]
  · simp [colCellsL]
  · simp [boxCellsL, List.length_flatMap, Function.comp_def, List.map_const]
    omega

theorem nodup_unit {size br bc : ℕ} {u : List (ℕ × ℕ)}
    (hu : u ∈ unitsList size br bc) : u.Nodup := by
  rcases mem_unitsList.1 hu with ⟨r, _, rfl⟩ | ⟨c, _, rfl⟩ | ⟨i, _, j, _, rfl⟩
  · exact List.Nodup.map (fun a b h => by simpa using congrArg Prod.snd h)
      (List.nodup_range _)
  · exact List.Nodup.map (fun a b h => by simpa using congrArg Prod.fst h)
      (List.nodup_range _)
  · unfold boxCellsL
    rw [List.nodup_flatMap]
    constructor
    · intro dr _
      exact List.Nodup.map (fun a b h => by simpa using congrArg Prod.snd h)
        (List.nodup_range _)
    · apply List.Pairwise.imp_of_mem (R := fun d1 d2 => d1 ≠ d2)
      · intro d1 d2 _ _ hne q hq1 hq2
        simp only [Function.onFun, List.mem_map] at hq1 hq2
        obtain ⟨c1, _, e1⟩ := hq1
        obtain ⟨c2, _, e2⟩ := hq2
        have h1 := congrArg Prod.fst e1
        have h2 := congrArg Prod.fst e2
        simp only at h1 h2
        exact hne (by omega)
      · exact List.nodup_range _

theorem unit_sub_cells {size br bc : ℕ} {u : List (ℕ × ℕ)}
    (hs : sizeBoxOk size br bc) (hu : u ∈ unitsList size br bc) :
    ∀ p ∈ u, p ∈ cellsList size := by
  obtain ⟨hbr, hbc, hmul⟩ := hs
  rcases mem_unitsList.1 hu with ⟨r, hr, rfl⟩ | ⟨c, hc, rfl⟩ |
    ⟨i, hi, j, hj, rfl⟩
  · intro p hp
    obtain ⟨h1, h2⟩ := mem_rowCellsL.1 hp
    exact mem_cellsList.2 ⟨by omega, h2⟩
  · intro p hp
    obtain ⟨h1, h2⟩ := mem_colCellsL.1 hp
    exact mem_cellsList.2 ⟨h2, by omega⟩
  · intro p hp
    obtain ⟨dr, hdr, dc, hdc, rfl⟩ := mem_boxCellsL.1 hp
    have hdiv1 : size / br = bc := by
      rw [← hmul, Nat.mul_div_cancel_left _ hbr]
    have hdiv2 : size / bc = br := by
      rw [← hmul, Nat.mul_div_cancel _ hbc]
    apply mem_cellsList.2
    constructor
    · simp only
      have h1 : i + 1 ≤ bc := by omega
      have h2 : (i + 1) * br ≤ bc * br := Nat.mul_le_mul_right br h1
      have h3 : bc * br = size := by rw [mul_comm]; exact hmul
      have h4 : (i + 1) * br = i * br + br := by ring
      omega
    · simp only
      have h1 : j + 1 ≤ br := by omega
      have h2 : (j + 1) * bc ≤ br * bc := Nat.mul_le_mul_right bc h1
      have h4 : (j + 1) * bc = j * bc + bc := by ring
      omega

theorem unit_sameUnit {size br bc : ℕ} {u : List (ℕ × ℕ)}
    (hu : u ∈ unitsList size br bc) :
    ∀ p ∈ u, ∀ q ∈ u, sameUnit br bc p q := by
  rcases mem_unitsList.1 hu with ⟨r, _, rfl⟩ | ⟨c, _, rfl⟩ |
    ⟨i, _, j, _, rfl⟩
  · intro p hp q hq
    exact Or.inl ((mem_rowCellsL.1 hp).1.trans (mem_rowCellsL.1 hq).1.symm)
  · intro p hp q hq
    exact Or.inr (Or.inl
      ((mem_colCellsL.1 hp).1.trans (mem_colCellsL.1 hq).1.symm))
  · intro p hp q hq
    obtain ⟨dr1, h1, dc1, h2, rfl⟩ := mem_boxCellsL.1 hp
    obtain ⟨dr2, h3, dc2, h4, rfl⟩ := mem_boxCellsL.1 hq
    refine Or.inr (Or.inr ⟨?_, ?_⟩)
    · rw [boxStart_mul_add i br dr1 h1, boxStart_mul_add i br dr2 h3]
    · rw [boxStart_mul_add j bc dc1 h2, boxStart_mul_add j bc dc2 h4]

/-- Any two distinct same-unit in-range cells share a literal unit of
`unitsList`. -/
theorem sameUnit_common_unit {size br bc : ℕ} {p q : ℕ × ℕ}
    (hs : sizeBoxOk size br bc) (hp : p ∈ cellsList size)
    (hq : q ∈ cellsList size) (hsu : sameUnit br bc p q) :
    ∃ u ∈ unitsList size br bc, p ∈ u ∧ q ∈ u := by
  obtain ⟨hbr, hbc, hmul⟩ := hs
  obtain ⟨hp1, hp2⟩ := mem_cellsList.1 hp
  obtain ⟨hq1, hq2⟩ := mem_cellsList.1 hq
  rcases hsu with h | h | ⟨h1, h2⟩
  · refine ⟨rowCellsL size p.1, mem_unitsList.2 (Or.inl ⟨p.1, hp1, rfl⟩), ?_, ?_⟩
    · exact mem_rowCellsL.2 ⟨rfl, hp2⟩
    · exact mem_rowCellsL.2 ⟨h.symm, hq2⟩
  · refine ⟨colCellsL size p.2,
      mem_unitsList.2 (Or.inr (Or.inl ⟨p.2, hp2, rfl⟩)), ?_, ?_⟩
    · exact mem_colCellsL.2 ⟨rfl, hp1⟩
    · exact mem_colCellsL.2 ⟨h.symm, hq1⟩
  · refine ⟨boxCellsL br bc (p.1 / br) (p.2 / bc),
      mem_unitsList.2 (Or.inr (Or.inr ⟨p.1 / br, ?_, p.2 / bc, ?_, rfl⟩)),
      ?_, ?_⟩
    · exact Nat.div_lt_div_of_lt_of_dvd ⟨bc, hmul.symm⟩ hp1
    · exact Nat.div_lt_div_of_lt_of_dvd ⟨br, by rw [← hmul]; ring⟩ hp2
    · apply mem_boxCellsL.2
      refine ⟨p.1 % br, Nat.mod_lt _ hbr, p.2 % bc, Nat.mod_lt _ hbc, ?_⟩
      have e1 : p.1 / br * br = boxStart p.1 br := by
        rw [boxStart_eq_mul]; ring
      have e2 : p.2 / bc * bc = boxStart p.2 bc := by
        rw [boxStart_eq_mul]; ring
      have d1 := boxStart_decomp p.1 br hbr
      have d2 := boxStart_decomp p.2 bc hbc
      cases p with
      | mk a b => simp only at *; rw [Prod.mk.injEq]; omega
    · apply mem_boxCellsL.2
      refine ⟨q.1 % br, Nat.mod_lt _ hbr, q.2 % bc, Nat.mod_lt _ hbc, ?_⟩
      have e1 : p.1 / br * br = boxStart p.1 br := by
        rw [boxStart_eq_mul]; ring
      have e2 : p.2 / bc * bc = boxStart p.2 bc := by
        rw [boxStart_eq_mul]; ring
      have d1 := boxStart_decomp q.1 br hbr
      have d2 := boxStart_decomp q.2 bc hbc
      cases q with
      | mk a b => simp only at *; rw [Prod.mk.injEq]; omega

/-! ### Pigeonhole facts for a single unit -/

/-- The values held by the cells of `u` (blanks skipped). -/
def valsOf (b : Board) (u : List (ℕ × ℕ)) : List ℕ :=
  u.filterMap fun p => getCell b p.1 p.2

theorem countIn_eq_count (b : Board) (u : List (ℕ × ℕ)) (v : ℕ) :
    countIn b u v = (valsOf b u).count v := by
  induction u with
  | nil => rfl
  | cons p u ih =>
    unfold countIn valsOf at *
    rcases h : getCell b p.1 p.2 with _ | w
    · rw [List.countP_cons,
        List.filterMap_cons_none (f := fun q : ℕ × ℕ => getCell b q.1 q.2) h,
        ih]
      simp [h]
    · rw [List.countP_cons,
        List.filterMap_cons_some (f := fun q : ℕ × ℕ => getCell b q.1 q.2) h,
        List.count_cons, ih, h]
      by_cases hw : w = v
      · subst hw; simp
      · simp [hw, Ne.symm hw]

theorem sum_ite_hit (x size : ℕ) :
    (∑ k ∈ Finset.range size, if x = k + 1 then 1 else 0) =
    if 1 ≤ x ∧ x ≤ size then 1 else 0 := by
  induction size with
  | zero =>
    have h : ¬(1 ≤ x ∧ x = 0) := by omega
    have h2 : (1 ≤ x ∧ x ≤ 0) ↔ (1 ≤ x ∧ x = 0) := by omega
    simp [h2, h]
  | succ n ih =>
    rw [Finset.sum_range_succ, ih]
    split_ifs <;> omega

theorem sum_count_range (vs : List ℕ) (size : ℕ) :
    (∑ k ∈ Finset.range size, vs.count (k + 1)) =
    vs.countP fun v => decide (1 ≤ v ∧ v ≤ size) := by
  induction vs with
  | nil => simp
  | cons x vs ih =>
    have hc : ∀ k, (x :: vs).count (k + 1)
        = vs.count (k + 1) + if x = k + 1 then 1 else 0 := by
      intro k
      rw [List.count_cons]
      by_cases hx : x = k + 1 <;> simp [hx]
    simp only [hc]
    rw [Finset.sum_add_distrib, ih, sum_ite_hit, List.countP_cons]
    by_cases hx : 1 ≤ x ∧ x ≤ size <;> simp [hx]

theorem filterMap_full {α β : Type} (f : α → Option β) (l : List α)
    (h : (l.filterMap f).length = l.length) : ∀ a ∈ l, (f a).isSome := by
  induction l with
  | nil => simp
  | cons x xs ih =>
    rcases hx : f x with _ | y
    · exfalso
      rw [List.filterMap_cons_none hx] at h
      have := List.length_filterMap_le f xs
      simp at h
      omega
    · rw [List.filterMap_cons_some hx] at h
      simp only [List.length_cons, Nat.add_right_cancel_iff] at h
      intro a ha
      rcases List.mem_cons.1 ha with rfl | hm
      · simp [hx]
      · exact ih h a hm

theorem length_filterMap_of_all_some {α β : Type} (f : α → Option β)
    (l : List α) (h : ∀ a ∈ l, (f a).isSome) :
    (l.filterMap f).length = l.length := by
  induction l with
  | nil => rfl
  | cons x xs ih =>
    rcases hx : f x with _ | y
    · have := h x (List.mem_cons_self x xs)
      rw [hx] at this
      simp at this
    · rw [List.filterMap_cons_some hx]
      simp only [List.length_cons]
      rw [ih (fun a ha => h a (List.mem_cons_of_mem _ ha))]

theorem two_le_countP {α : Type} {l : List α} {p q : α} {f : α → Bool}
    (hp : p ∈ l) (hq : q ∈ l) (hne : p ≠ q)
    (hfp : f p = true) (hfq : f q = true) : 2 ≤ l.countP f := by
  rw [List.countP_eq_length_filter]
  have hp2 : p ∈ l.filter f := List.mem_filter.2 ⟨hp, hfp⟩
  have hq2 : q ∈ l.filter f := List.mem_filter.2 ⟨hq, hfq⟩
  match hfl : l.filter f with
  | [] => rw [hfl] at hp2; simp at hp2
  | [x] =>
    rw [hfl] at hp2 hq2
    simp only [List.mem_singleton] at hp2 hq2
    exact absurd (hp2.trans hq2.symm) hne
  | x :: y :: rest => simp

/-- If every value `1..size` occurs exactly once in a unit of `size`
cells, then every cell of the unit is filled with an in-range value and
no two distinct cells agree. -/
theorem unit_counts_split {b : Board} {u : List (ℕ × ℕ)} {size : ℕ}
    (hlen : u.length = size)
    (hcount : ∀ k, k < size → countIn b u (k + 1) = 1) :
    (∀ p ∈ u, ∃ v, getCell b p.1 p.2 = some v ∧ 1 ≤ v ∧ v ≤ size) ∧
    (∀ p ∈ u, ∀ q ∈ u, p ≠ q → getCell b p.1 p.2 ≠ getCell b q.1 q.2) := by
  have hsum : (∑ k ∈ Finset.range size, (valsOf b u).count (k + 1)) = size := by
    rw [Finset.sum_congr rfl fun k hk => by
      rw [← countIn_eq_count, hcount k (Finset.mem_range.1 hk)]]
    simp
  rw [sum_count_range] at hsum
  have hle1 : (valsOf b u).countP (fun v => decide (1 ≤ v ∧ v ≤ size))
      ≤ (valsOf b u).length := List.countP_le_length _
  have hle2 : (valsOf b u).length ≤ u.length := List.length_filterMap_le _ _
  have hveq : (valsOf b u).length = u.length := by omega
  have hall : ∀ v ∈ valsOf b u, 1 ≤ v ∧ v ≤ size := by
    have := List.countP_eq_length.1 (by omega :
      (valsOf b u).countP (fun v => decide (1 ≤ v ∧ v ≤ size))
        = (valsOf b u).length)
    intro v hv
    simpa using this v hv
  have hfilled : ∀ p ∈ u, ∃ v, getCell b p.1 p.2 = some v ∧ 1 ≤ v ∧ v ≤ size := by
    intro p hp
    have hsome := filterMap_full _ u hveq p hp
    rcases hg : getCell b p.1 p.2 with _ | v
    · rw [hg] at hsome; simp at hsome
    · refine ⟨v, rfl, hall v ?_⟩
      exact List.mem_filterMap.2 ⟨p, hp, hg⟩
  refine ⟨hfilled, ?_⟩
  intro p hp q hq hne heq
  obtain ⟨v, hv, hv1, hv2⟩ := hfilled p hp
  have hqv : getCell b q.1 q.2 = some v := by rw [← heq, hv]
  have h2 : 2 ≤ countIn b u v := by
    unfold countIn
    exact two_le_countP hp hq hne (by simp [hv]) (by simp [hqv])
  have h1 := hcount (v - 1) (by omega)
  have hv1' : v - 1 + 1 = v := by omega
  rw [hv1'] at h1
  omega

/-- Conversely, a unit of `size` pairwise-distinct filled in-range cells
contains every value `1..size` exactly once. -/
theorem unit_filled_counts {b : Board} {u : List (ℕ × ℕ)} {size : ℕ}
    (hnd : u.Nodup) (hlen : u.length = size)
    (hfill : ∀ p ∈ u, ∃ v, getCell b p.1 p.2 = some v ∧ 1 ≤ v ∧ v ≤ size)
    (hdist : ∀ p ∈ u, ∀ q ∈ u, p ≠ q →
      getCell b p.1 p.2 ≠ getCell b q.1 q.2) :
    ∀ k, k < size → countIn b u (k + 1) = 1 := by
  have hvlen : (valsOf b u).length = size := by
    rw [valsOf, length_filterMap_of_all_some, hlen]
    intro p hp
    obtain ⟨v, hv, _⟩ := hfill p hp
    simp [hv]
  have hvnd : (valsOf b u).Nodup := by
    clear hvlen hlen
    induction u with
    | nil => exact List.nodup_nil
    | cons p u ih =>
      obtain ⟨v, hv, _⟩ := hfill p (List.mem_cons_self p u)
      rw [valsOf,
        List.filterMap_cons_some (f := fun q : ℕ × ℕ => getCell b q.1 q.2) hv]
      apply List.nodup_cons.2
      constructor
      · intro hvin
        obtain ⟨q, hqmem, hqv⟩ := List.mem_filterMap.1 hvin
        have hqp : q ≠ p := by
          rintro rfl
          exact (List.nodup_cons.1 hnd).1 hqmem
        exact hdist p (List.mem_cons_self p u) q (List.mem_cons_of_mem _ hqmem)
          (Ne.symm hqp) (by rw [hv, hqv])
      · exact ih (List.nodup_cons.1 hnd).2
          (fun q hq => hfill q (List.mem_cons_of_mem _ hq))
          (fun q hq q2 hq2 => hdist q (List.mem_cons_of_mem _ hq) q2
            (List.mem_cons_of_mem _ hq2))
  have hsub : valsOf b u ⊆ natsOneTo size := by
    intro v hv
    obtain ⟨q, hqmem, hqv⟩ := List.mem_filterMap.1 hv
    obtain ⟨w, hw, hw1, hw2⟩ := hfill q hqmem
    rw [hw] at hqv
    cases hqv
    exact (mem_natsOneTo _ _).2 ⟨hw1, hw2⟩
  have hperm : (valsOf b u).Perm (natsOneTo size) := by
    apply List.Subperm.perm_of_length_le (List.subperm_of_subset hvnd hsub)
    simp [natsOneTo, hvlen]
  intro k hk
  rw [countIn_eq_count, hperm.count_eq]
  apply List.count_eq_one_of_mem
  · exact List.Nodup.map (fun a b h => by omega) (List.nodup_range _)
  · exact (mem_natsOneTo _ _).2 ⟨by omega, by omega⟩

/-! ### Characterisation of full legality -/

theorem sameUnit_symm {br bc : ℕ} {p q : ℕ × ℕ}
    (h : sameUnit br bc p q) : sameUnit br bc q p := by
  rcases h with h | h | ⟨h1, h2⟩
  · exact Or.inl h.symm
  · exact Or.inr (Or.inl h.symm)
  · exact Or.inr (Or.inr ⟨h1.symm, h2.symm⟩)

theorem legalFull_split {b : Board} {size br bc : ℕ}
    (hs : sizeBoxOk size br bc) (hl : legalFull b size br bc) :
    boardFullP b size ∧ inRangeOK b size ∧ consistentOK b size br bc := by
  have hcell : ∀ p ∈ cellsList size,
      ∃ v, getCell b p.1 p.2 = some v ∧ 1 ≤ v ∧ v ≤ size := by
    intro p hp
    obtain ⟨hp1, hp2⟩ := mem_cellsList.1 hp
    have hu : rowCellsL size p.1 ∈ unitsList size br bc :=
      mem_unitsList.2 (Or.inl ⟨p.1, hp1, rfl⟩)
    have hsplit := unit_counts_split (length_unit hs hu)
      (fun k hk => hl _ hu k (List.mem_range.2 hk))
    exact hsplit.1 p (mem_rowCellsL.2 ⟨rfl, hp2⟩)
  refine ⟨?_, ?_, ?_⟩
  · intro p hp
    obtain ⟨v, hv, _⟩ := hcell p hp
    rw [hv]; simp
  · intro p hp
    obtain ⟨v, hv, h1, h2⟩ := hcell p hp
    rw [hv]; exact ⟨h1, h2⟩
  · intro p hp q hq hne hsu
    obtain ⟨u, hu, hpu, hqu⟩ := sameUnit_common_unit hs hp hq hsu
    have hsplit := unit_counts_split (length_unit hs hu)
      (fun k hk => hl _ hu k (List.mem_range.2 hk))
    exact Or.inr (hsplit.2 p hpu q hqu hne)

theorem legalFull_of_filled {b : Board} {size br bc : ℕ}
    (hs : sizeBoxOk size br bc) (hfull : boardFullP b size)
    (hrange : inRangeOK b size) (hcons : consistentOK b size br bc) :
    legalFull b size br bc := by
  intro u hu k hk
  apply unit_filled_counts (nodup_unit hu) (length_unit hs hu)
  · intro p hp
    have hpc := unit_sub_cells hs hu p hp
    have h1 := hfull p hpc
    have h2 := hrange p hpc
    rcases hg : getCell b p.1 p.2 with _ | v
    · exact absurd hg h1
    · rw [hg] at h2
      exact ⟨v, rfl, h2.1, h2.2⟩
  · intro p hp q hq hne
    have hpc := unit_sub_cells hs hu p hp
    have hqc := unit_sub_cells hs hu q hq
    rcases hcons p hpc q hqc hne (unit_sameUnit hu p hp q hq) with h | h
    · exact absurd h (hfull p hpc)
    · exact h
  · exact List.mem_range.1 hk

/-! ### `isValid` as absence of unit conflicts -/

theorem boxStart_add_lt {x k m size : ℕ} (hk : 0 < k) (hm : 0 < m)
    (hmul : k * m = size) (hx : x < size) (d : ℕ) (hd : d < k) :
    boxStart x k + d < size := by
  rw [boxStart_eq_mul]
  have hx2 : x < k * m := by rw [hmul]; exact hx
  have hdiv : x / k < m := Nat.div_lt_of_lt_mul hx2
  calc k * (x / k) + d < k * (x / k) + k := by omega
    _ = k * (x / k + 1) := by ring
    _ ≤ k * m := Nat.mul_le_mul_left k (by omega)
    _ = size := hmul

theorem boxStart_boxStart_add {x k : ℕ} (d : ℕ) (hd : d < k) :
    boxStart (boxStart x k + d) k = boxStart x k := by
  have h1 : boxStart x k = x / k * k := by rw [boxStart_eq_mul]; ring
  rw [h1, boxStart_mul_add _ _ _ hd]

theorem validAt_iff_noConflict {b : Board} {size br bc r c n : ℕ}
    (hs : sizeBoxOk size br bc) (hr : r < size) (hc : c < size)
    (hblank : getCell b r c = none) :
    validAt b r c n size br bc ↔
    ∀ q ∈ cellsList size, q ≠ (r, c) → sameUnit br bc (r, c) q →
      getCell b q.1 q.2 ≠ some n := by
  obtain ⟨hbr, hbc, hmul⟩ := hs
  constructor
  · rintro ⟨hrowcol, hbox⟩ q hq hne hsu
    obtain ⟨hq1, hq2⟩ := mem_cellsList.1 hq
    rcases hsu with h | h | ⟨h1, h2⟩
    · have h' : r = q.1 := h
      have hcell := (hrowcol q.2 hq2).1
      rw [h'] at hcell
      exact hcell
    · have h' : c = q.2 := h
      have hcell := (hrowcol q.1 hq1).2
      rw [h'] at hcell
      exact hcell
    · have d1 := boxStart_decomp q.1 br hbr
      have d2 := boxStart_decomp q.2 bc hbc
      have := hbox (q.1 % br) (by omega) (q.2 % bc) (by omega)
      have e1 : r - r % br + q.1 % br = q.1 := by
        have : r - r % br = boxStart r br := rfl
        rw [this, h1]
        omega
      have e2 : c - c % bc + q.2 % bc = q.2 := by
        have : c - c % bc = boxStart c bc := rfl
        rw [this, h2]
        omega
      rw [e1, e2] at this
      exact this
  · intro h
    constructor
    · intro i hi
      constructor
      · by_cases hieq : i = c
        · subst hieq; rw [hblank]; simp
        · exact h (r, i) (mem_cellsList.2 ⟨hr, hi⟩)
            (by simp [Prod.ext_iff, hieq]) (Or.inl rfl)
      · by_cases hieq : i = r
        · subst hieq; rw [hblank]; simp
        · exact h (i, c) (mem_cellsList.2 ⟨hi, hc⟩)
            (by simp [Prod.ext_iff, hieq]) (Or.inr (Or.inl rfl))
    · intro dr hdr dc hdc
      have e1 : r - r % br = boxStart r br := rfl
      have e2 : c - c % bc = boxStart c bc := rfl
      rw [e1, e2]
      by_cases hq : (boxStart r br + dr, boxStart c bc + dc) = (r, c)
      · rw [show boxStart r br + dr = r from congrArg Prod.fst hq,
          show boxStart c bc + dc = c from congrArg Prod.snd hq, hblank]
        simp
      · apply h _ (mem_cellsList.2 ⟨?_, ?_⟩) hq
        · refine Or.inr (Or.inr ⟨?_, ?_⟩)
          · simp only
            rw [boxStart_boxStart_add dr hdr]
          · simp only
            rw [boxStart_boxStart_add dc hdc]
        · exact boxStart_add_lt hbr hbc hmul hr dr hdr
        · exact boxStart_add_lt hbc hbr (by rw [← hmul]; ring) hc dc hdc

/-- A rejected value really conflicts with some filled same-unit cell. -/
theorem not_validAt_conflict {b : Board} {size br bc r c n : ℕ}
    (hs : sizeBoxOk size br bc) (hr : r < size) (hc : c < size)
    (hblank : getCell b r c = none)
    (hnv : ¬ validAt b r c n size br bc) :
    ∃ q ∈ cellsList size, q ≠ (r, c) ∧ sameUnit br bc (r, c) q ∧
      getCell b q.1 q.2 = some n := by
  rw [validAt_iff_noConflict hs hr hc hblank] at hnv
  push_neg at hnv
  obtain ⟨q, hq, hne, hsu, hv⟩ := hnv
  exact ⟨q, hq, hne, hsu, hv⟩

theorem ne_pair_of_ne {r c : ℕ} {q : ℕ × ℕ} (h : q ≠ (r, c)) :
    (r, c) ≠ (q.1, q.2) := by
  intro he
  exact h (by cases q; exact he.symm)

/-- Placing a legal in-range value at a blank in-range cell preserves
well-formedness. -/
theorem okBoard_setCell {b : Board} {size br bc r c n : ℕ}
    (hs : sizeBoxOk size br bc) (hok : okBoard b size br bc)
    (hr : r < size) (hc : c < size) (hblank : getCell b r c = none)
    (hv : validAt b r c n size br bc) (h1 : 1 ≤ n) (h2 : n ≤ size) :
    okBoard (setCell b r c (some n)) size br bc := by
  obtain ⟨hd, hcons, hrange⟩ := hok
  have hset : getCell (setCell b r c (some n)) r c = some n :=
    getCell_setCell_self_dims b size r c (some n) hd hr hc
  have hconf := (validAt_iff_noConflict hs hr hc hblank).1 hv
  refine ⟨dims_setCell b size r c _ hd, ?_, ?_⟩
  · intro p hp q hq hne hsu
    by_cases hpe : p = (r, c)
    · subst hpe
      right
      rw [hset, getCell_setCell_ne b r c q.1 q.2 _ (ne_pair_of_ne
        (fun hh => hne hh.symm))]
      intro heq
      exact hconf q hq (fun hh => hne hh.symm) hsu heq.symm
    · by_cases hqe : q = (r, c)
      · subst hqe
        rw [getCell_setCell_ne b r c p.1 p.2 _ (ne_pair_of_ne hpe), hset]
        rcases hgp : getCell b p.1 p.2 with _ | w
        · exact Or.inl rfl
        · right
          intro heq
          have hw : w = n := by simpa using heq
          subst hw
          exact hconf p hp hpe (sameUnit_symm hsu) hgp
      · rw [getCell_setCell_ne b r c p.1 p.2 _ (ne_pair_of_ne hpe),
          getCell_setCell_ne b r c q.1 q.2 _ (ne_pair_of_ne hqe)]
        exact hcons p hp q hq hne hsu
  · intro p hp
    by_cases hpe : p = (r, c)
    · subst hpe
      rw [hset]
      exact ⟨h1, h2⟩
    · rw [getCell_setCell_ne b r c p.1 p.2 _ (ne_pair_of_ne hpe)]
      exact hrange p hp

/-- The value a legal completion places at a blank cell is a legal
in-range candidate of the partial board. -/
theorem solution_value_validAt {s b : Board} {size br bc r c v : ℕ}
    (hs : sizeBoxOk size br bc) (hext : extendsB s b)
    (hleg : legalFull s size br bc) (hr : r < size) (hc : c < size)
    (hblank : getCell b r c = none) (hv : getCell s r c = some v) :
    validAt b r c v size br bc ∧ 1 ≤ v ∧ v ≤ size := by
  obtain ⟨hfull, hrange, hcons⟩ := legalFull_split hs hleg
  have hmem : (r, c) ∈ cellsList size := mem_cellsList.2 ⟨hr, hc⟩
  constructor
  · rw [validAt_iff_noConflict hs hr hc hblank]
    intro q hq hne hsu hbq
    have hsq : getCell s q.1 q.2 = some v := hext _ _ _ hbq
    rcases hcons (r, c) hmem q hq (fun he => hne he.symm) hsu with h | h
    · simp only at h
      rw [hv] at h
      cases h
    · simp only at h
      rw [hv, hsq] at h
      exact h rfl
  · have := hrange _ hmem
    simp only at this
    rw [hv] at this
    exact this

/-! ### Properties of the completion enumeration -/

theorem board_ext {s b : Board} {size : ℕ} (hds : dims s size)
    (hdb : dims b size) (h : ∀ r c, getCell s r c = getCell b r c) :
    s = b := by
  obtain ⟨hsl, hsrow⟩ := hds
  obtain ⟨hbl, hbrow⟩ := hdb
  apply List.ext_getElem (by omega)
  intro i h1 h2
  apply List.ext_getElem
  · rw [hsrow _ (List.getElem_mem h1), hbrow _ (List.getElem_mem h2)]
  · intro j hj1 hj2
    have hgc := h i j
    unfold getCell at hgc
    rw [List.getD_eq_getElem s [] h1, List.getD_eq_getElem b [] h2,
      List.getD_eq_getElem _ none hj1, List.getD_eq_getElem _ none hj2] at hgc
    exact hgc

theorem setCell_comm (b : Board) (r1 c1 r2 c2 : ℕ) (u v : Cell)
    (h : (r1, c1) ≠ (r2, c2)) :
    setCell (setCell b r1 c1 u) r2 c2 v = setCell (setCell b r2 c2 v) r1 c1 u := by
  by_cases hr : r1 = r2
  · subst hr
    have hc : c1 ≠ c2 := by
      intro he
      exact h (by rw [he])
    unfold setCell
    by_cases hlen : r1 < b.length
    · rw [List.getD_set_self _ _ _ _ (by simpa using hlen),
        List.getD_set_self _ _ _ _ (by simpa using hlen),
        List.set_set, List.set_set, List.set_comm _ _ _ hc]
    · have hid : ∀ X, b.set r1 X = b := fun X =>
        List.set_of_length_le _ _ _ (by omega)
      simp only [hid]
  · unfold setCell
    rw [List.getD_set_ne _ _ _ _ _ hr, List.getD_set_ne _ _ _ _ _ (Ne.symm hr),
      List.set_comm _ _ _ hr]

theorem completionsAux_all_filled (size : ℕ) (L : List (ℕ × ℕ)) (b : Board)
    (h : ∀ p ∈ L, getCell b p.1 p.2 ≠ none) :
    completionsAux size L b = [b] := by
  induction L generalizing b with
  | nil => rfl
  | cons p rest ih =>
    unfold completionsAux
    rw [if_neg (h p (List.mem_cons_self p rest))]
    exact ih b (fun q hq => h q (List.mem_cons_of_mem _ hq))

theorem mem_completionsAux_extendsB {size : ℕ} {L : List (ℕ × ℕ)}
    {b s : Board} (hmem : s ∈ completionsAux size L b) :
    ∀ r c w, getCell b r c = some w → getCell s r c = some w := by
  induction L generalizing b with
  | nil =>
    unfold completionsAux at hmem
    rw [List.mem_singleton] at hmem
    subst hmem
    exact fun _ _ _ hh => hh
  | cons p rest ih =>
    unfold completionsAux at hmem
    by_cases hb : getCell b p.1 p.2 = none
    · rw [if_pos hb] at hmem
      simp only [List.mem_flatMap, List.mem_range] at hmem
      obtain ⟨k, hk, hmem2⟩ := hmem
      intro r c w hw
      apply ih hmem2
      have hne : (p.1, p.2) ≠ (r, c) := by
        intro he
        rw [show p.1 = r from congrArg Prod.fst he,
          show p.2 = c from congrArg Prod.snd he, hw] at hb
        cases hb
      rw [getCell_setCell_ne _ _ _ _ _ _ hne]
      exact hw
    · rw [if_neg hb] at hmem
      exact ih hmem

theorem mem_completionsAux_dims {size : ℕ} {L : List (ℕ × ℕ)} {b s : Board}
    (hd : dims b size) (hmem : s ∈ completionsAux size L b) : dims s size := by
  induction L generalizing b with
  | nil =>
    unfold completionsAux at hmem
    rw [List.mem_singleton] at hmem
    subst hmem
    exact hd
  | cons p rest ih =>
    unfold completionsAux at hmem
    by_cases hb : getCell b p.1 p.2 = none
    · rw [if_pos hb] at hmem
      simp only [List.mem_flatMap, List.mem_range] at hmem
      obtain ⟨k, hk, hmem2⟩ := hmem
      exact ih (dims_setCell _ _ _ _ _ hd) hmem2
    · rw [if_neg hb] at hmem
      exact ih hd hmem

/-- Completeness of the enumeration: every suitably-agreeing board is
listed. -/
theorem mem_completionsAux_of {size : ℕ} :
    ∀ (L : List (ℕ × ℕ)) (b s : Board), dims b size → dims s size →
    (∀ r c, (r, c) ∉ L → getCell s r c = getCell b r c) →
    (∀ p ∈ L, p.1 < size ∧ p.2 < size ∧
      (getCell b p.1 p.2 = none →
        ∃ v, getCell s p.1 p.2 = some v ∧ 1 ≤ v ∧ v ≤ size) ∧
      (getCell b p.1 p.2 ≠ none → getCell s p.1 p.2 = getCell b p.1 p.2)) →
    s ∈ completionsAux size L b := by
  intro L
  induction L with
  | nil =>
    intro b s hdb hds hout _
    unfold completionsAux
    rw [List.mem_singleton]
    exact board_ext hds hdb (fun r c => hout r c (List.not_mem_nil (r, c)))
  | cons p rest ih =>
    intro b s hdb hds hout hin
    obtain ⟨hp1, hp2, hblank_case, hfilled_case⟩ :=
      hin p (List.mem_cons_self p rest)
    unfold completionsAux
    by_cases hb : getCell b p.1 p.2 = none
    · rw [if_pos hb]
      obtain ⟨v, hv, hv1, hv2⟩ := hblank_case hb
      simp only [List.mem_flatMap, List.mem_range]
      refine ⟨v - 1, by omega, ?_⟩
      have hv' : v - 1 + 1 = v := by omega
      rw [hv']
      apply ih (setCell b p.1 p.2 (some v)) s
        (dims_setCell _ _ _ _ _ hdb) hds
      · intro r c hrc
        by_cases hpe : (p.1, p.2) = (r, c)
        · rw [← show p.1 = r from congrArg Prod.fst hpe,
            ← show p.2 = c from congrArg Prod.snd hpe]
          rw [getCell_setCell_self_dims b size p.1 p.2 _ hdb hp1 hp2]
          exact hv
        · rw [getCell_setCell_ne _ _ _ _ _ _ hpe]
          apply hout
          intro hmem
          rcases List.mem_cons.1 hmem with he | hm
          · exact hpe (by rw [he])
          · exact hrc hm
      · intro q hq
        obtain ⟨hq1, hq2, hqblank, hqfilled⟩ :=
          hin q (List.mem_cons_of_mem _ hq)
        refine ⟨hq1, hq2, ?_, ?_⟩
        · intro hqb
          apply hqblank
          by_cases hpe : (p.1, p.2) = (q.1, q.2)
          · exfalso
            have hself : getCell (setCell b p.1 p.2 (some v)) q.1 q.2
                = some v := by
              rw [← show p.1 = q.1 from congrArg Prod.fst hpe,
                ← show p.2 = q.2 from congrArg Prod.snd hpe]
              exact getCell_setCell_self_dims b size p.1 p.2 _ hdb hp1 hp2
            rw [hself] at hqb
            cases hqb
          · rw [getCell_setCell_ne _ _ _ _ _ _ hpe] at hqb
            exact hqb
        · intro hqf
          by_cases hpe : (p.1, p.2) = (q.1, q.2)
          · have hself : getCell (setCell b p.1 p.2 (some v)) q.1 q.2
                = some v := by
              rw [← show p.1 = q.1 from congrArg Prod.fst hpe,
                ← show p.2 = q.2 from congrArg Prod.snd hpe]
              exact getCell_setCell_self_dims b size p.1 p.2 _ hdb hp1 hp2
            rw [hself, ← show p.1 = q.1 from congrArg Prod.fst hpe,
              ← show p.2 = q.2 from congrArg Prod.snd hpe]
            exact hv
          · rw [getCell_setCell_ne _ _ _ _ _ _ hpe]
            rw [getCell_setCell_ne _ _ _ _ _ _ hpe] at hqf
            exact hqfilled hqf
    · rw [if_neg hb]
      apply ih b s hdb hds
      · intro r c hrc
        by_cases hpe : (p.1, p.2) = (r, c)
        · rw [← show p.1 = r from congrArg Prod.fst hpe,
            ← show p.2 = c from congrArg Prod.snd hpe]
          exact hfilled_case hb
        · apply hout
          intro hmem
          rcases List.mem_cons.1 hmem with he | hm
          · exact hpe (by rw [he])
          · exact hrc hm
      · intro q hq
        exact hin q (List.mem_cons_of_mem _ hq)

theorem sum_map_range_eq (g : ℕ → ℕ) (n : ℕ) :
    ((List.range n).map g).sum = ∑ k ∈ Finset.range n, g k := by
  induction n with
  | zero => simp
  | succ m ih =>
    rw [List.range_succ, List.map_append, List.sum_append,
      Finset.sum_range_succ, ih]
    simp

theorem pair_ne_of_ne {h p : ℕ × ℕ} (hne : h ≠ p) :
    (h.1, h.2) ≠ (p.1, p.2) := by
  intro he
  apply hne
  rw [← Prod.mk.eta (p := h), ← Prod.mk.eta (p := p)]
  exact he

/-- Partition of the completions of `b` by the value placed at one chosen
blank in-range cell of `L`. -/
theorem countP_completionsAux_set {size : ℕ} (q : Board → Bool) :
    ∀ (L : List (ℕ × ℕ)), L.Nodup → ∀ (b : Board) (p : ℕ × ℕ), p ∈ L →
    dims b size → p.1 < size → p.2 < size →
    getCell b p.1 p.2 = none →
    (completionsAux size L b).countP q =
      ∑ k ∈ Finset.range size,
        (completionsAux size L (setCell b p.1 p.2 (some (k + 1)))).countP q := by
  intro L
  induction L with
  | nil =>
    intro _ b p hp
    exact absurd hp (List.not_mem_nil p)
  | cons h rest ih =>
    intro hnd b p hp hd hp1 hp2 hb
    rcases List.mem_cons.1 hp with rfl | hpr
    · unfold completionsAux
      rw [if_pos hb, List.countP_flatMap, sum_map_range_eq]
      apply Finset.sum_congr rfl
      intro k _
      have hfilled : getCell (setCell b p.1 p.2 (some (k + 1))) p.1 p.2
          = some (k + 1) :=
        getCell_setCell_self_dims b size p.1 p.2 _ hd hp1 hp2
      rw [if_neg (by rw [hfilled]; simp)]
      rfl
    · have hhp : h ≠ p := by
        intro he
        exact (List.nodup_cons.1 hnd).1 (he ▸ hpr)
      have hhp2 : (h.1, h.2) ≠ (p.1, p.2) := pair_ne_of_ne hhp
      unfold completionsAux
      by_cases hbh : getCell b h.1 h.2 = none
      · rw [if_pos hbh, List.countP_flatMap, sum_map_range_eq]
        have hterm : ∀ m, m < size →
            (completionsAux size rest (setCell b h.1 h.2 (some (m + 1)))).countP q
            = ∑ k ∈ Finset.range size,
              (completionsAux size rest
                (setCell (setCell b p.1 p.2 (some (k + 1))) h.1 h.2
                  (some (m + 1)))).countP q := by
          intro m _
          rw [ih (List.nodup_cons.1 hnd).2 _ p hpr
            (dims_setCell _ _ _ _ _ hd) hp1 hp2
            (by rw [getCell_setCell_ne _ _ _ _ _ _ hhp2]; exact hb)]
          apply Finset.sum_congr rfl
          intro k _
          rw [setCell_comm _ _ _ _ _ _ _ hhp2]
        have hlhs : (∑ m ∈ Finset.range size,
            ((List.countP q ∘ fun k =>
              completionsAux size rest (setCell b h.1 h.2 (some (k + 1)))) m))
            = ∑ m ∈ Finset.range size, ∑ k ∈ Finset.range size,
              (completionsAux size rest
                (setCell (setCell b p.1 p.2 (some (k + 1))) h.1 h.2
                  (some (m + 1)))).countP q := by
          apply Finset.sum_congr rfl
          intro m hm
          exact hterm m (Finset.mem_range.1 hm)
        rw [hlhs, Finset.sum_comm]
        apply Finset.sum_congr rfl
        intro k _
        rw [if_pos (by
          rw [getCell_setCell_ne _ _ _ _ _ _ (Ne.symm hhp2)]
          exact hbh)]
        rw [List.countP_flatMap, sum_map_range_eq]
        rfl
      · rw [if_neg hbh,
          ih (List.nodup_cons.1 hnd).2 b p hpr hd hp1 hp2 hb]
        apply Finset.sum_congr rfl
        intro k _
        rw [if_neg (by
          rw [getCell_setCell_ne _ _ _ _ _ _ (Ne.symm hhp2)]
          exact hbh)]

/-- A fully-filled board is its own single enumerated completion. -/
theorem numSolutions_full {b : Board} {size br bc : ℕ}
    (hfull : boardFullP b size) :
    numSolutions b size br bc =
      if legalFull b size br bc then 1 else 0 := by
  unfold numSolutions allCompletions
  rw [completionsAux_all_filled size _ b hfull, List.countP_singleton]
  by_cases h : legalFull b size br bc <;> simp [h]

/-- Every legal completion is listed among the enumerated completions. -/
theorem solution_mem_allCompletions {b s : Board} {size br bc : ℕ}
    (hs : sizeBoxOk size br bc) (hdb : dims b size)
    (hsol : solutionOf s b size br bc) :
    s ∈ allCompletions b size := by
  obtain ⟨hds, hext, hleg⟩ := hsol
  obtain ⟨hfull, hrange, _⟩ := legalFull_split hs hleg
  apply mem_completionsAux_of (cellsList size) b s hdb hds
  · intro r c hrc
    have hout : size ≤ r ∨ size ≤ c := by
      by_contra hcon
      push_neg at hcon
      exact hrc (mem_cellsList.2 ⟨by omega, by omega⟩)
    rw [getCell_dims_blank s size r c hds hout,
      getCell_dims_blank b size r c hdb hout]
  · intro p hpmem
    obtain ⟨hp1, hp2⟩ := mem_cellsList.1 hpmem
    refine ⟨hp1, hp2, ?_, ?_⟩
    · intro _
      rcases hg : getCell s p.1 p.2 with _ | v
      · exact absurd hg (hfull p hpmem)
      · have := hrange p hpmem
        rw [hg] at this
        exact ⟨v, rfl, this.1, this.2⟩
    · intro hbf
      rcases hg : getCell b p.1 p.2 with _ | w
      · exact absurd hg hbf
      · exact hext _ _ _ hg

/-- A board with a legal completion has a positive exact count. -/
theorem numSolutions_pos {b s : Board} {size br bc : ℕ}
    (hs : sizeBoxOk size br bc) (hdb : dims b size)
    (hsol : solutionOf s b size br bc) :
    0 < numSolutions b size br bc := by
  unfold numSolutions
  rw [List.countP_pos]
  exact ⟨s, solution_mem_allCompletions hs hdb hsol,
    by simpa using hsol.2.2⟩

/-- An exact count of 1 pins the completion down uniquely. -/
theorem numSolutions_le_one_unique {b s1 s2 : Board} {size br bc : ℕ}
    (hs : sizeBoxOk size br bc) (hdb : dims b size)
    (hone : numSolutions b size br bc ≤ 1)
    (h1 : solutionOf s1 b size br bc) (h2 : solutionOf s2 b size br bc) :
    s1 = s2 := by
  by_contra hne
  have := two_le_countP (f := fun s => decide (legalFull s size br bc))
    (solution_mem_allCompletions hs hdb h1)
    (solution_mem_allCompletions hs hdb h2) hne
    (by simpa using h1.2.2) (by simpa using h2.2.2)
  unfold numSolutions at hone
  omega

/-- Every enumerated completion extends the base board. -/
theorem mem_allCompletions_extendsB {b s : Board} {size : ℕ}
    (hmem : s ∈ allCompletions b size) : extendsB s b :=
  fun r c w hw => mem_completionsAux_extendsB hmem r c w hw

/-- A blank cell with no legal candidate kills every completion. -/
theorem numSolutions_zero_of_deadCell {b : Board} {size br bc r c : ℕ}
    (hs : sizeBoxOk size br bc) (hdb : dims b size)
    (hr : r < size) (hc : c < size) (hblank : getCell b r c = none)
    (hcand : candidates b r c size br bc = []) :
    numSolutions b size br bc = 0 := by
  unfold numSolutions
  rw [List.countP_eq_zero]
  intro s hsmem hsl
  have hleg : legalFull s size br bc := by simpa using hsl
  have hds : dims s size := mem_completionsAux_dims hdb hsmem
  have hext : extendsB s b := mem_allCompletions_extendsB hsmem
  have hfull := (legalFull_split hs hleg).1
  rcases hg : getCell s r c with _ | v
  · exact hfull (r, c) (mem_cellsList.2 ⟨hr, hc⟩) hg
  · obtain ⟨hva, hv1, hv2⟩ :=
      solution_value_validAt hs hext hleg hr hc hblank hg
    have : v ∈ candidates b r c size br bc :=
      (mem_candidates _ _ _ _ _ _ _).2 ⟨hv1, hv2, (isValid_iff _ _ _ _ _ _ _).2 hva⟩
    rw [hcand] at this
    cases this

/-- Placing an illegal value at a blank cell kills every completion. -/
theorem numSolutions_zero_of_invalid {b : Board} {size br bc r c n : ℕ}
    (hs : sizeBoxOk size br bc) (hdb : dims b size)
    (hr : r < size) (hc : c < size) (hblank : getCell b r c = none)
    (hnv : ¬ validAt b r c n size br bc) :
    numSolutions (setCell b r c (some n)) size br bc = 0 := by
  obtain ⟨p, hpmem, hpne, hpsu, hpval⟩ :=
    not_validAt_conflict hs hr hc hblank hnv
  unfold numSolutions
  rw [List.countP_eq_zero]
  intro s hsmem hsl
  have hleg : legalFull s size br bc := by simpa using hsl
  have hext : extendsB s (setCell b r c (some n)) :=
    mem_allCompletions_extendsB hsmem
  have hsp : getCell s p.1 p.2 = some n := by
    apply hext
    rw [getCell_setCell_ne _ _ _ _ _ _ (ne_pair_of_ne hpne)]
    exact hpval
  have hsrc : getCell s r c = some n := by
    apply hext
    exact getCell_setCell_self_dims b size r c _ hdb hr hc
  have hcons := (legalFull_split hs hleg).2.2
  rcases hcons (r, c) (mem_cellsList.2 ⟨hr, hc⟩) p hpmem
      (fun he => hpne he.symm) hpsu with hcase | hcase
  · simp only at hcase
    rw [hsrc] at hcase
    cases hcase
  · simp only at hcase
    rw [hsrc, hsp] at hcase
    exact hcase rfl

theorem sum_filterMap_range (size : ℕ) (cond : ℕ → Bool) (g : ℕ → ℕ)
    (hzero : ∀ k, k < size → cond (k + 1) = false → g (k + 1) = 0) :
    (∑ k ∈ Finset.range size, g (k + 1)) =
    (((List.range size).filterMap fun k =>
      if cond (k + 1) then some (k + 1) else none).map g).sum := by
  induction size with
  | zero => simp
  | succ m ih =>
    rw [Finset.sum_range_succ, List.range_succ, List.filterMap_append,
      List.map_append, List.sum_append,
      ih (fun k hk hc => hzero k (by omega) hc)]
    rcases hcm : cond (m + 1) with _ | _
    · rw [hzero m (by omega) hcm]
      simp [hcm]
    · simp [hcm]

/-- The exact count of a board with a blank in-range cell is the sum of
the exact counts over the cell's legal candidates. -/
theorem numSolutions_partition {b : Board} {size br bc r c : ℕ}
    (hs : sizeBoxOk size br bc) (hdb : dims b size)
    (hr : r < size) (hc : c < size) (hblank : getCell b r c = none) :
    numSolutions b size br bc =
    ((candidates b r c size br bc).map
      (fun n => numSolutions (setCell b r c (some n)) size br bc)).sum := by
  have hpart := @countP_completionsAux_set size
    (fun s => decide (legalFull s size br bc))
    (cellsList size) (cellsList_nodup size) b (r, c)
    (mem_cellsList.2 ⟨hr, hc⟩) hdb hr hc hblank
  unfold numSolutions allCompletions
  rw [hpart, candidates]
  rw [← sum_filterMap_range size
    (fun n => isValid b r c n size br bc)
    (fun n => (completionsAux size (cellsList size)
      (setCell b r c (some n))).countP
        fun s => decide (legalFull s size br bc))]
  intro k hk hinv
  have hnva : ¬ validAt b r c (k + 1) size br bc := by
    rw [← isValid_iff, hinv]
    simp
  exact numSolutions_zero_of_invalid hs hdb hr hc hblank hnva

/-! ### Behaviour of the MRV scan -/

/-- Invariant of the running `best` cell of the scan. -/
def goodBest (b : Board) (size br bc : ℕ) : Option (ℕ × ℕ × List ℕ) → Prop
  | none => True
  | some t => t.1 < size ∧ t.2.1 < size ∧ getCell b t.1 t.2.1 = none ∧
      t.2.2 = candidates b t.1 t.2.1 size br bc ∧ t.2.2 ≠ []

theorem scanFrom_none {b : Board} {size br bc : ℕ} :
    ∀ (L : List (ℕ × ℕ)) (best : Option (ℕ × ℕ × List ℕ)),
    scanFrom b size br bc L best = none →
    ∃ p, p ∈ L ∧ getCell b p.1 p.2 = none ∧
      candidates b p.1 p.2 size br bc = [] := by
  intro L
  induction L with
  | nil =>
    intro best h
    unfold scanFrom at h
    cases h
  | cons p rest ih =>
    intro best h
    unfold scanFrom at h
    by_cases hb : getCell b p.1 p.2 = none
    · rw [if_pos hb] at h
      by_cases hemp : (candidates b p.1 p.2 size br bc).isEmpty
      · exact ⟨p, List.mem_cons_self p rest, hb, List.isEmpty_iff.1 hemp⟩
      · rw [if_neg hemp] at h
        rcases best with _ | best1
        · simp only at h
          by_cases h1 : (candidates b p.1 p.2 size br bc).length = 1
          · rw [if_pos h1] at h
            simp at h
          · rw [if_neg h1] at h
            obtain ⟨q, hq, hq2, hq3⟩ := ih _ h
            exact ⟨q, List.mem_cons_of_mem _ hq, hq2, hq3⟩
        · simp only at h
          by_cases h1 : (candidates b p.1 p.2 size br bc).length < best1.2.2.length
          · rw [if_pos h1] at h
            by_cases h2 : (candidates b p.1 p.2 size br bc).length = 1
            · rw [if_pos h2] at h
              simp at h
            · rw [if_neg h2] at h
              obtain ⟨q, hq, hq2, hq3⟩ := ih _ h
              exact ⟨q, List.mem_cons_of_mem _ hq, hq2, hq3⟩
          · rw [if_neg h1] at h
            obtain ⟨q, hq, hq2, hq3⟩ := ih _ h
            exact ⟨q, List.mem_cons_of_mem _ hq, hq2, hq3⟩
    · rw [if_neg hb] at h
      obtain ⟨q, hq, hq2, hq3⟩ := ih _ h
      exact ⟨q, List.mem_cons_of_mem _ hq, hq2, hq3⟩

theorem scanFrom_some_none {b : Board} {size br bc : ℕ} :
    ∀ (L : List (ℕ × ℕ)) (best : Option (ℕ × ℕ × List ℕ)),
    scanFrom b size br bc L best = some none →
    best = none ∧ ∀ p ∈ L, getCell b p.1 p.2 ≠ none := by
  intro L
  induction L with
  | nil =>
    intro best h
    unfold scanFrom at h
    cases h
    exact ⟨rfl, by simp⟩
  | cons p rest ih =>
    intro best h
    unfold scanFrom at h
    by_cases hb : getCell b p.1 p.2 = none
    · rw [if_pos hb] at h
      by_cases hemp : (candidates b p.1 p.2 size br bc).isEmpty
      · rw [if_pos hemp] at h
        cases h
      · rw [if_neg hemp] at h
        exfalso
        rcases best with _ | best1
        · simp only at h
          by_cases h1 : (candidates b p.1 p.2 size br bc).length = 1
          · rw [if_pos h1] at h
            simp at h
          · rw [if_neg h1] at h
            have hbad := (ih _ h).1
            simp at hbad
        · simp only at h
          by_cases h1 : (candidates b p.1 p.2 size br bc).length < best1.2.2.length
          · rw [if_pos h1] at h
            by_cases h2 : (candidates b p.1 p.2 size br bc).length = 1
            · rw [if_pos h2] at h
              simp at h
            · rw [if_neg h2] at h
              have hbad := (ih _ h).1
              simp at hbad
          · rw [if_neg h1] at h
            have hbad := (ih _ h).1
            simp at hbad
    · rw [if_neg hb] at h
      obtain ⟨h1, h2⟩ := ih _ h
      refine ⟨h1, ?_⟩
      intro q hq
      rcases List.mem_cons.1 hq with rfl | hm
      · exact hb
      · exact h2 q hm

theorem scanFrom_some_some {b : Board} {size br bc : ℕ} :
    ∀ (L : List (ℕ × ℕ)) (best : Option (ℕ × ℕ × List ℕ))
      (r c : ℕ) (opts : List ℕ),
    (∀ p ∈ L, p.1 < size ∧ p.2 < size) → goodBest b size br bc best →
    scanFrom b size br bc L best = some (some (r, c, opts)) →
    r < size ∧ c < size ∧ getCell b r c = none ∧
      opts = candidates b r c size br bc ∧ opts ≠ [] := by
  intro L
  induction L with
  | nil =>
    intro best r c opts _ hgood h
    unfold scanFrom at h
    cases h
    exact hgood
  | cons p rest ih =>
    intro best r c opts hL hgood h
    unfold scanFrom at h
    by_cases hb : getCell b p.1 p.2 = none
    · rw [if_pos hb] at h
      by_cases hemp : (candidates b p.1 p.2 size br bc).isEmpty
      · rw [if_pos hemp] at h
        cases h
      · rw [if_neg hemp] at h
        have hpL := hL p (List.mem_cons_self p rest)
        have hcne : candidates b p.1 p.2 size br bc ≠ [] := by
          intro he
          rw [he] at hemp
          exact hemp rfl
        have hnew : goodBest b size br bc
            (some (p.1, p.2, candidates b p.1 p.2 size br bc)) :=
          ⟨hpL.1, hpL.2, hb, rfl, hcne⟩
        have hrest : ∀ q ∈ rest, q.1 < size ∧ q.2 < size :=
          fun q hq => hL q (List.mem_cons_of_mem _ hq)
        have hdone : some (some (p.1, p.2, candidates b p.1 p.2 size br bc))
            = some (some (r, c, opts)) →
            r < size ∧ c < size ∧ getCell b r c = none ∧
            opts = candidates b r c size br bc ∧ opts ≠ [] := by
          intro heq
          have hinj := Option.some.inj (Option.some.inj heq)
          have e1 : p.1 = r := congrArg (fun x => x.1) hinj
          have e2 : p.2 = c := congrArg (fun x => x.2.1) hinj
          have e3 : candidates b p.1 p.2 size br bc = opts :=
            congrArg (fun x => x.2.2) hinj
          subst e1
          subst e2
          exact ⟨hpL.1, hpL.2, hb, e3.symm, by rw [← e3]; exact hcne⟩
        rcases best with _ | best1
        · simp only at h
          by_cases h1 : (candidates b p.1 p.2 size br bc).length = 1
          · rw [if_pos h1] at h
            exact hdone h
          · rw [if_neg h1] at h
            exact ih _ r c opts hrest hnew h
        · simp only at h
          by_cases h1 : (candidates b p.1 p.2 size br bc).length < best1.2.2.length
          · rw [if_pos h1] at h
            by_cases h2 : (candidates b p.1 p.2 size br bc).length = 1
            · rw [if_pos h2] at h
              exact hdone h
            · rw [if_neg h2] at h
              exact ih _ r c opts hrest hnew h
          · rw [if_neg h1] at h
            exact ih _ r c opts hrest hgood h
    · rw [if_neg hb] at h
      exact ih _ r c opts (fun q hq => hL q (List.mem_cons_of_mem _ hq)) hgood h


/-! ### The board is restored by the counter -/

theorem setCell_none_self (b : Board) (r c : ℕ)
    (h : getCell b r c = none) : setCell b r c none = b := by
  rw [← h]
  exact setCell_getCell_self b r c

theorem goCands_board (f : ℕ → Board → ℕ → Board × ℕ × ℕ) (limit r c : ℕ)
    (hf : ∀ t b' count, (f t b' count).1 = b') :
    ∀ (ns : List ℕ) (t : ℕ) (b : Board) (count : ℕ),
    getCell b r c = none →
    (goCands f limit r c ns t b count).1 = b := by
  intro ns
  induction ns with
  | nil => intro t b count _; rfl
  | cons n rest ih =>
    intro t b count hblank
    unfold goCands
    by_cases hq : count < limit
    · rw [if_pos hq]
      have hres : (f t (setCell b r c (some n)) count).1
          = setCell b r c (some n) := hf _ _ _
      rw [hres, setCell_setCell_self, setCell_none_self b r c hblank]
      exact ih _ b _ hblank
    · rw [if_neg hq]

/-- `countSolutions` undoes every tentative placement: the `backtrack`
closure always hands back the board it received. -/
theorem backtrackF_board (g : RNG) (size br bc limit : ℕ) :
    ∀ (fuel t : ℕ) (b : Board) (count : ℕ),
    (backtrackF g size br bc limit fuel t b count).1 = b := by
  intro fuel
  induction fuel with
  | zero => intro t b count; rfl
  | succ fuel ih =>
    intro t b count
    unfold backtrackF
    by_cases hlim : limit ≤ count
    · rw [if_pos hlim]
    · rw [if_neg hlim]
      rcases hscan : scanFrom b size br bc (cellsList size) none with _ | best
      · rfl
      · rcases best with _ | ⟨r, c, opts⟩
        · rfl
        · simp only
          obtain ⟨_, _, hblank, _, _⟩ := scanFrom_some_some _ _ r c opts
            (fun p hp => mem_cellsList.1 hp) (by exact trivial) hscan
          exact goCands_board _ limit r c (fun t' b' cnt => ih t' b' cnt)
            _ _ b count hblank

/-! ### Dead cells are dead ends -/

theorem getCell_setCell_of_filled {b : Board} {r' c' q1 q2 n w : ℕ}
    (hblank : getCell b r' c' = none)
    (hw : getCell b q1 q2 = some w) :
    getCell (setCell b r' c' (some n)) q1 q2 = some w := by
  rw [getCell_setCell_ne]
  · exact hw
  · intro he
    rw [show r' = q1 from congrArg Prod.fst he,
      show c' = q2 from congrArg Prod.snd he, hw] at hblank
    cases hblank

/-- Placements only shrink the legality of other cells. -/
theorem validAt_antitone {b : Board} {r' c' n r c m size br bc : ℕ}
    (hblank : getCell b r' c' = none)
    (hv : validAt (setCell b r' c' (some n)) r c m size br bc) :
    validAt b r c m size br bc := by
  obtain ⟨h1, h2⟩ := hv
  constructor
  · intro i hi
    refine ⟨?_, ?_⟩
    · intro he
      exact (h1 i hi).1 (getCell_setCell_of_filled hblank he)
    · intro he
      exact (h1 i hi).2 (getCell_setCell_of_filled hblank he)
  · intro dr hdr dc hdc he
    exact h2 dr hdr dc hdc (getCell_setCell_of_filled hblank he)

theorem candidates_setCell_nil {b : Board} {r' c' n r c size br bc : ℕ}
    (hblank : getCell b r' c' = none)
    (hnil : candidates b r c size br bc = []) :
    candidates (setCell b r' c' (some n)) r c size br bc = [] := by
  rcases hm : candidates (setCell b r' c' (some n)) r c size br bc with _ | ⟨m, rest⟩
  · rfl
  · exfalso
    have hmem : m ∈ candidates (setCell b r' c' (some n)) r c size br bc := by
      rw [hm]; exact List.mem_cons_self _ _
    obtain ⟨hm1, hm2, hmv⟩ := (mem_candidates _ _ _ _ _ _ _).1 hmem
    have hva := validAt_antitone hblank ((isValid_iff _ _ _ _ _ _ _).1 hmv)
    have : m ∈ candidates b r c size br bc :=
      (mem_candidates _ _ _ _ _ _ _).2 ⟨hm1, hm2,
        (isValid_iff _ _ _ _ _ _ _).2 hva⟩
    rw [hnil] at this
    cases this

/-- A recursive step whose board holds a blank cell with zero legal
candidates contributes nothing: the count comes back unchanged. -/
theorem backtrackF_count_deadCell (g : RNG) (size br bc limit r c : ℕ)
    (hr : r < size) (hc : c < size) :
    ∀ (fuel t : ℕ) (b : Board) (count : ℕ),
    getCell b r c = none → candidates b r c size br bc = [] →
    (backtrackF g size br bc limit fuel t b count).2.1 = count := by
  intro fuel
  induction fuel with
  | zero => intro t b count _ _; rfl
  | succ fuel ih =>
    intro t b count hblank hnil
    unfold backtrackF
    by_cases hlim : limit ≤ count
    · rw [if_pos hlim]
    · rw [if_neg hlim]
      rcases hscan : scanFrom b size br bc (cellsList size) none with _ | best
      · rfl
      · rcases best with _ | ⟨r', c', opts⟩
        · exfalso
          exact (scanFrom_some_none _ _ hscan).2 (r, c)
            (mem_cellsList.2 ⟨hr, hc⟩) hblank
        · simp only
          obtain ⟨hr', hc', hblank', hopts, hne⟩ := scanFrom_some_some _ _ r' c'
            opts (fun p hp => mem_cellsList.1 hp) (by exact trivial) hscan
          have hcell_ne : (r', c') ≠ (r, c) := by
            intro he
            apply hne
            rw [hopts, show r' = r from congrArg Prod.fst he,
              show c' = c from congrArg Prod.snd he, hnil]
          have hloop : ∀ (ns : List ℕ) (t' : ℕ) (count' : ℕ),
              (goCands (backtrackF g size br bc limit fuel) limit r' c' ns t'
                b count').2.1 = count' := by
            intro ns
            induction ns with
            | nil => intro t' count'; rfl
            | cons m rest ihn =>
              intro t' count'
              unfold goCands
              by_cases hq : count' < limit
              · rw [if_pos hq]
                have hrec := ih t' (setCell b r' c' (some m)) count'
                  (by rw [getCell_setCell_ne _ _ _ _ _ _ hcell_ne]; exact hblank)
                  (candidates_setCell_nil hblank' hnil)
                have hboard := backtrackF_board g size br bc limit fuel t'
                  (setCell b r' c' (some m)) count'
                rw [hboard, setCell_setCell_self, setCell_none_self b r' c' hblank',
                  hrec]
                exact ihn _ _
              · rw [if_neg hq]
          exact hloop _ _ count

/-! ### The central theorem: the bounded counter computes `min limit k` -/

theorem backtrackF_count (g : RNG) (size br bc limit : ℕ)
    (hs : sizeBoxOk size br bc) :
    ∀ (fuel t : ℕ) (b : Board) (count : ℕ),
    okBoard b size br bc → count ≤ limit →
    numBlanks b size + 1 ≤ fuel →
    (backtrackF g size br bc limit fuel t b count).2.1
      = min limit (count + numSolutions b size br bc) := by
  intro fuel
  induction fuel with
  | zero =>
    intro t b count _ _ hfuel
    omega
  | succ fuel ih =>
    intro t b count hok hcl hfuel
    unfold backtrackF
    by_cases hlim : limit ≤ count
    · rw [if_pos hlim]
      dsimp only
      omega
    · rw [if_neg hlim]
      rcases hscan : scanFrom b size br bc (cellsList size) none with _ | best
      · obtain ⟨p, hpL, hpblank, hpcand⟩ := scanFrom_none _ _ hscan
        obtain ⟨hp1, hp2⟩ := mem_cellsList.1 hpL
        rw [numSolutions_zero_of_deadCell hs hok.1 hp1 hp2 hpblank hpcand]
        dsimp only
        omega
      · rcases best with _ | ⟨r, c, opts⟩
        · obtain ⟨_, hfull⟩ := scanFrom_some_none _ _ hscan
          have hleg : legalFull b size br bc :=
            legalFull_of_filled hs hfull hok.2.2 hok.2.1
          rw [numSolutions_full hfull, if_pos hleg]
          dsimp only
          omega
        · obtain ⟨hr, hc, hblank, hopts, hone⟩ := scanFrom_some_some _ _ r c
            opts (fun p hp => mem_cellsList.1 hp) (by exact trivial) hscan
          dsimp only
          have hloop : ∀ (ns : List ℕ) (t' count' : ℕ), count' ≤ limit →
              (∀ n ∈ ns, n ∈ candidates b r c size br bc) →
              (goCands (backtrackF g size br bc limit fuel) limit r c ns t' b
                count').2.1
              = min limit (count' + (ns.map (fun n =>
                  numSolutions (setCell b r c (some n)) size br bc)).sum) := by
            intro ns
            induction ns with
            | nil =>
              intro t' count' hcl' _
              simp only [goCands, List.map_nil, List.sum_nil]
              omega
            | cons n rest ihn =>
              intro t' count' hcl' hmem
              unfold goCands
              by_cases hq : count' < limit
              · rw [if_pos hq]
                obtain ⟨h1, h2, hvB⟩ := (mem_candidates _ _ _ _ _ _ _).1
                  (hmem n (List.mem_cons_self n rest))
                have hva := (isValid_iff _ _ _ _ _ _ _).1 hvB
                have hok' : okBoard (setCell b r c (some n)) size br bc :=
                  okBoard_setCell hs hok hr hc hblank hva h1 h2
                have hblanks := numBlanks_setCell b size r c n hr hc hblank hok.1
                have hboard := backtrackF_board g size br bc limit fuel t'
                  (setCell b r c (some n)) count'
                have hcount := ih t' (setCell b r c (some n)) count' hok'
                  (by omega) (by omega)
                rw [hboard, setCell_setCell_self, setCell_none_self b r c hblank,
                  hcount,
                  ihn _ _ (by omega)
                    (fun m hm => hmem m (List.mem_cons_of_mem _ hm))]
                simp only [List.map_cons, List.sum_cons]
                omega
              · rw [if_neg hq]
                dsimp only
                simp only [List.map_cons, List.sum_cons]
                omega
          rw [hloop _ _ count hcl (fun n hn => by
            rw [← hopts]
            exact (mem_shuffle g t opts n).1 hn)]
          have hperm : (((shuffle g t opts).1).map (fun n =>
              numSolutions (setCell b r c (some n)) size br bc)).sum
              = ((candidates b r c size br bc).map (fun n =>
                numSolutions (setCell b r c (some n)) size br bc)).sum := by
            have hp := (shuffle_perm g t opts).map (fun n =>
              numSolutions (setCell b r c (some n)) size br bc)
            rw [hp.sum_eq, hopts]
          rw [hperm, ← numSolutions_partition hs hok.1 hr hc hblank]

/-- `countSolutions` computes exactly `min(limit, k)` on well-formed
boards, where `k` is the exact number of legal completions. -/
theorem countSolutions_eq_min (g : RNG) (t : ℕ) (b : Board)
    (size br bc limit : ℕ) (hs : sizeBoxOk size br bc)
    (hok : okBoard b size br bc) :
    countSolutions g t b size br bc limit
      = min limit (numSolutions b size br bc) := by
  unfold countSolutions countSolutionsRun
  rw [backtrackF_count g size br bc limit hs _ t b 0 hok (by omega) (by omega)]
  omega

/-- The run of `countSolutions` hands back an unchanged board. -/
theorem countSolutionsRun_board (g : RNG) (t : ℕ) (b : Board)
    (size br bc limit : ℕ) :
    (countSolutionsRun g t b size br bc limit).1 = b :=
  backtrackF_board g size br bc limit _ t b 0

/-! ### The solver: scan, restoration, soundness, completeness -/

theorem firstEmptyAux_some {b : Board} :
    ∀ (L : List (ℕ × ℕ)) (p : ℕ × ℕ), firstEmptyAux b L = some p →
    p ∈ L ∧ getCell b p.1 p.2 = none := by
  intro L
  induction L with
  | nil => intro p h; cases h
  | cons q rest ih =>
    intro p h
    unfold firstEmptyAux at h
    by_cases hb : getCell b q.1 q.2 = none
    · rw [if_pos hb] at h
      cases h
      exact ⟨List.mem_cons_self _ _, hb⟩
    · rw [if_neg hb] at h
      obtain ⟨h1, h2⟩ := ih p h
      exact ⟨List.mem_cons_of_mem _ h1, h2⟩

theorem firstEmptyAux_none {b : Board} :
    ∀ (L : List (ℕ × ℕ)), firstEmptyAux b L = none →
    ∀ p ∈ L, getCell b p.1 p.2 ≠ none := by
  intro L
  induction L with
  | nil => intro _ p hp; cases hp
  | cons q rest ih =>
    intro h p hp
    unfold firstEmptyAux at h
    by_cases hb : getCell b q.1 q.2 = none
    · rw [if_pos hb] at h
      cases h
    · rw [if_neg hb] at h
      rcases List.mem_cons.1 hp with rfl | hm
      · exact hb
      · exact ih h p hm

theorem tryNums_board (f : ℕ → Board → Board × Bool × ℕ)
    (size br bc r c : ℕ)
    (hf : ∀ t b', (f t b').2.1 = false → (f t b').1 = b') :
    ∀ (ns : List ℕ) (t : ℕ) (b : Board), getCell b r c = none →
    (tryNums f size br bc r c ns t b).2.1 = false →
    (tryNums f size br bc r c ns t b).1 = b := by
  intro ns
  induction ns with
  | nil => intro t b _ _; rfl
  | cons n rest ih =>
    intro t b hblank hflag
    unfold tryNums at hflag ⊢
    by_cases hv : isValid b r c n size br bc
    · rw [if_pos hv] at hflag ⊢
      by_cases hsf : (f t (setCell b r c (some n))).2.1 = true
      · rw [if_pos hsf] at hflag
        rw [hsf] at hflag
        cases hflag
      · rw [if_neg hsf] at hflag ⊢
        have hres : (f t (setCell b r c (some n))).1 = setCell b r c (some n) :=
          hf _ _ (Bool.not_eq_true _ ▸ hsf)
        rw [hres, setCell_setCell_self, setCell_none_self b r c hblank]
          at hflag ⊢
        exact ih _ b hblank hflag
    · rw [if_neg hv] at hflag ⊢
      exact ih _ b hblank hflag

/-- A failed `solveBoard` leaves the board exactly as it found it. -/
theorem solveBoardF_board_of_false (g : RNG) (size br bc : ℕ) :
    ∀ (fuel t : ℕ) (b : Board),
    (solveBoardF g size br bc fuel t b).2.1 = false →
    (solveBoardF g size br bc fuel t b).1 = b := by
  intro fuel
  induction fuel with
  | zero => intro t b _; rfl
  | succ fuel ih =>
    intro t b hflag
    unfold solveBoardF at hflag ⊢
    rcases hfe : firstEmpty b size with _ | p
    · rw [hfe] at hflag
    · rw [hfe] at hflag
      have hblank := (firstEmptyAux_some _ p hfe).2
      exact tryNums_board _ size br bc p.1 p.2 (fun t' b' hfb => ih t' b' hfb)
        _ _ b hblank hflag

/-- Extension is preserved when the base acquires a value the extension
already holds. -/
theorem extendsB_setCell_of {s b : Board} {size r c v : ℕ}
    (hext : extendsB s b) (hsv : getCell s r c = some v)
    (hd : dims b size) (hr : r < size) (hc : c < size) :
    extendsB s (setCell b r c (some v)) := by
  intro q1 q2 w hw
  by_cases hqe : (r, c) = (q1, q2)
  · rw [← show r = q1 from congrArg Prod.fst hqe,
      ← show c = q2 from congrArg Prod.snd hqe] at hw ⊢
    rw [getCell_setCell_self_dims b size r c _ hd hr hc] at hw
    rw [hsv, hw]
  · rw [getCell_setCell_ne _ _ _ _ _ _ hqe] at hw
    exact hext _ _ _ hw

/-- Extension through a placement at a blank cell of the base. -/
theorem extendsB_of_setCell {s b : Board} {r c : ℕ} {v : Cell}
    (hblank : getCell b r c = none)
    (hext : extendsB s (setCell b r c v)) : extendsB s b := by
  intro q1 q2 w hw
  apply hext
  rw [getCell_setCell_ne _ _ _ _ _ _ (by
    intro he
    rw [show r = q1 from congrArg Prod.fst he,
      show c = q2 from congrArg Prod.snd he, hw] at hblank
    cases hblank)]
  exact hw

/-- Soundness: when `solveBoard` reports success on a well-formed board,
the board it leaves behind is a legal completion of its input. -/
theorem solveBoardF_sound (g : RNG) (size br bc : ℕ)
    (hs : sizeBoxOk size br bc) :
    ∀ (fuel t : ℕ) (b : Board), okBoard b size br bc →
    (solveBoardF g size br bc fuel t b).2.1 = true →
    legalFull (solveBoardF g size br bc fuel t b).1 size br bc ∧
    extendsB (solveBoardF g size br bc fuel t b).1 b ∧
    dims (solveBoardF g size br bc fuel t b).1 size := by
  intro fuel
  induction fuel with
  | zero =>
    intro t b _ hflag
    cases hflag
  | succ fuel ih =>
    intro t b hok hflag
    unfold solveBoardF at hflag ⊢
    rcases hfe : firstEmpty b size with _ | p
    · have hfull : boardFullP b size :=
        fun q hq => firstEmptyAux_none _ hfe q hq
      exact ⟨legalFull_of_filled hs hfull hok.2.2 hok.2.1,
        fun _ _ _ h => h, hok.1⟩
    · rw [hfe] at hflag
      obtain ⟨hpmem, hblank⟩ := firstEmptyAux_some _ p hfe
      obtain ⟨hp1, hp2⟩ := mem_cellsList.1 hpmem
      have hloop : ∀ (ns : List ℕ) (t' : ℕ),
          (∀ n ∈ ns, 1 ≤ n ∧ n ≤ size) →
          (tryNums (solveBoardF g size br bc fuel) size br bc p.1 p.2 ns t'
            b).2.1 = true →
          legalFull (tryNums (solveBoardF g size br bc fuel) size br bc p.1
            p.2 ns t' b).1 size br bc ∧
          extendsB (tryNums (solveBoardF g size br bc fuel) size br bc p.1
            p.2 ns t' b).1 b ∧
          dims (tryNums (solveBoardF g size br bc fuel) size br bc p.1 p.2 ns
            t' b).1 size := by
        intro ns
        induction ns with
        | nil =>
          intro t' _ hfl
          cases hfl
        | cons n rest ihn =>
          intro t' hbounds hfl
          unfold tryNums at hfl ⊢
          by_cases hv : isValid b p.1 p.2 n size br bc
          · rw [if_pos hv] at hfl ⊢
            by_cases hsf :
                (solveBoardF g size br bc fuel t' (setCell b p.1 p.2
                  (some n))).2.1 = true
            · rw [if_pos hsf] at hfl ⊢
              have hok' : okBoard (setCell b p.1 p.2 (some n)) size br bc :=
                okBoard_setCell hs hok hp1 hp2 hblank
                  ((isValid_iff _ _ _ _ _ _ _).1 hv)
                  (hbounds n (List.mem_cons_self n rest)).1
                  (hbounds n (List.mem_cons_self n rest)).2
              obtain ⟨hl, he, hd⟩ := ih t' _ hok' hsf
              exact ⟨hl, extendsB_of_setCell hblank he, hd⟩
            · rw [if_neg hsf] at hfl ⊢
              have hres := solveBoardF_board_of_false g size br bc fuel t' _
                (Bool.not_eq_true _ ▸ hsf)
              rw [hres, setCell_setCell_self,
                setCell_none_self b p.1 p.2 hblank] at hfl ⊢
              exact ihn _ (fun m hm => hbounds m (List.mem_cons_of_mem _ hm))
                hfl
          · rw [if_neg hv] at hfl ⊢
            exact ihn _ (fun m hm => hbounds m (List.mem_cons_of_mem _ hm)) hfl
      exact hloop _ _ (fun n hn => (mem_natsOneTo size n).1
        ((mem_shuffle g t (natsOneTo size) n).1 hn)) hflag

/-- Completeness: on a well-formed completable board with enough fuel,
`solveBoard` succeeds whatever the randomness does. -/
theorem solveBoardF_complete (g : RNG) (size br bc : ℕ)
    (hs : sizeBoxOk size br bc) :
    ∀ (fuel t : ℕ) (b : Board), okBoard b size br bc →
    numBlanks b size + 1 ≤ fuel →
    (∃ s, solutionOf s b size br bc) →
    (solveBoardF g size br bc fuel t b).2.1 = true := by
  intro fuel
  induction fuel with
  | zero =>
    intro t b _ hfuel _
    omega
  | succ fuel ih =>
    intro t b hok hfuel hex
    obtain ⟨s, hds, hext, hleg⟩ := hex
    unfold solveBoardF
    rcases hfe : firstEmpty b size with _ | p
    · rfl
    · obtain ⟨hpmem, hblank⟩ := firstEmptyAux_some _ p hfe
      obtain ⟨hp1, hp2⟩ := mem_cellsList.1 hpmem
      rcases hsv : getCell s p.1 p.2 with _ | v
      · exact absurd hsv ((legalFull_split hs hleg).1 p hpmem)
      · obtain ⟨hva, hv1, hv2⟩ :=
          solution_value_validAt hs hext hleg hp1 hp2 hblank hsv
        have hloop : ∀ (ns : List ℕ) (t' : ℕ),
            (∃ n ∈ ns, validAt b p.1 p.2 n size br bc ∧ 1 ≤ n ∧ n ≤ size ∧
              ∃ s', solutionOf s' (setCell b p.1 p.2 (some n)) size br bc) →
            (tryNums (solveBoardF g size br bc fuel) size br bc p.1 p.2 ns t'
              b).2.1 = true := by
          intro ns
          induction ns with
          | nil =>
            rintro t' ⟨n, hn, _⟩
            cases hn
          | cons m rest ihn =>
            rintro t' ⟨n, hnmem, hnva, hn1, hn2, hssol⟩
            unfold tryNums
            by_cases hv : isValid b p.1 p.2 m size br bc
            · rw [if_pos hv]
              by_cases hsf : (solveBoardF g size br bc fuel t'
                  (setCell b p.1 p.2 (some m))).2.1 = true
              · rw [if_pos hsf]
                exact hsf
              · rw [if_neg hsf]
                rcases List.mem_cons.1 hnmem with rfl | hmr
                · exfalso
                  apply hsf
                  apply ih t' (setCell b p.1 p.2 (some n))
                  · exact okBoard_setCell hs hok hp1 hp2 hblank hnva hn1 hn2
                  · have := numBlanks_setCell b size p.1 p.2 n hp1 hp2 hblank
                      hok.1
                    omega
                  · exact hssol
                · have hres := solveBoardF_board_of_false g size br bc fuel t'
                    _ (Bool.not_eq_true _ ▸ hsf)
                  rw [hres, setCell_setCell_self,
                    setCell_none_self b p.1 p.2 hblank]
                  exact ihn _ ⟨n, hmr, hnva, hn1, hn2, hssol⟩
            · rw [if_neg hv]
              rcases List.mem_cons.1 hnmem with rfl | hmr
              · exact absurd ((isValid_iff _ _ _ _ _ _ _).2 hnva) hv
              · exact ihn _ ⟨n, hmr, hnva, hn1, hn2, hssol⟩
        apply hloop
        refine ⟨v, ?_, hva, hv1, hv2, s, hds,
          extendsB_setCell_of hext hsv hok.1 hp1 hp2, hleg⟩
        rw [mem_shuffle, mem_natsOneTo]
        exact ⟨hv1, hv2⟩

/-! ### Fuel irrelevance: the recursion depth is the number of blanks -/

/-- `solveBoard` stabilises at fuel `numBlanks + 1`: each recursive call
fills one blank cell, so the recursion never goes deeper. -/
theorem solveBoardF_stable (g : RNG) (size br bc : ℕ) :
    ∀ (f1 t : ℕ) (b : Board), dims b size →
    numBlanks b size + 1 ≤ f1 →
    solveBoardF g size br bc f1 t b
      = solveBoardF g size br bc (numBlanks b size + 1) t b := by
  intro f1
  induction f1 using Nat.strong_induction_on with
  | _ f1 ih =>
    intro t b hd hf
    rcases f1 with _ | m
    · omega
    · unfold solveBoardF
      rcases hfe : firstEmpty b size with _ | p
      · rfl
      · obtain ⟨hpmem, hblank⟩ := firstEmptyAux_some _ p hfe
        obtain ⟨hp1, hp2⟩ := mem_cellsList.1 hpmem
        have hloop : ∀ (ns : List ℕ) (t' : ℕ),
            tryNums (solveBoardF g size br bc m) size br bc p.1 p.2 ns t' b
            = tryNums (solveBoardF g size br bc (numBlanks b size)) size br bc
                p.1 p.2 ns t' b := by
          intro ns
          induction ns with
          | nil => intro t'; rfl
          | cons n rest ihn =>
            intro t'
            unfold tryNums
            by_cases hv : isValid b p.1 p.2 n size br bc
            · rw [if_pos hv, if_pos hv]
              have hblanks := numBlanks_setCell b size p.1 p.2 n hp1 hp2
                hblank hd
              have e1 : solveBoardF g size br bc m t'
                  (setCell b p.1 p.2 (some n))
                  = solveBoardF g size br bc (numBlanks b size) t'
                    (setCell b p.1 p.2 (some n)) := by
                rw [ih m (by omega) t' _ (dims_setCell _ _ _ _ _ hd) (by omega),
                  ih (numBlanks b size) (by omega) t' _
                    (dims_setCell _ _ _ _ _ hd) (by omega)]
              rw [e1]
              by_cases hsf : (solveBoardF g size br bc (numBlanks b size) t'
                  (setCell b p.1 p.2 (some n))).2.1 = true
              · rw [if_pos hsf, if_pos hsf]
              · rw [if_neg hsf, if_neg hsf]
                have hres := solveBoardF_board_of_false g size br bc
                  (numBlanks b size) t' _ (Bool.not_eq_true _ ▸ hsf)
                rw [hres, setCell_setCell_self,
                  setCell_none_self b p.1 p.2 hblank]
                exact ihn _
            · rw [if_neg hv, if_neg hv]
              exact ihn _
        exact hloop _ _

/-- The `backtrack` closure of `countSolutions` stabilises at fuel
`numBlanks + 1` for the same reason. -/
theorem backtrackF_stable (g : RNG) (size br bc limit : ℕ) :
    ∀ (f1 t : ℕ) (b : Board) (count : ℕ), dims b size →
    numBlanks b size + 1 ≤ f1 →
    backtrackF g size br bc limit f1 t b count
      = backtrackF g size br bc limit (numBlanks b size + 1) t b count := by
  intro f1
  induction f1 using Nat.strong_induction_on with
  | _ f1 ih =>
    intro t b count hd hf
    rcases f1 with _ | m
    · omega
    · unfold backtrackF
      by_cases hlim : limit ≤ count
      · rw [if_pos hlim, if_pos hlim]
      · rw [if_neg hlim, if_neg hlim]
        rcases hscan : scanFrom b size br bc (cellsList size) none with _ | best
        · rfl
        · rcases best with _ | ⟨r, c, opts⟩
          · rfl
          · obtain ⟨hr, hc, hblank, hopts, hone⟩ := scanFrom_some_some _ _ r c
              opts (fun p hp => mem_cellsList.1 hp) (by exact trivial) hscan
            have hloop : ∀ (ns : List ℕ) (t' count' : ℕ),
                goCands (backtrackF g size br bc limit m) limit r c ns t' b
                  count'
                = goCands (backtrackF g size br bc limit (numBlanks b size))
                    limit r c ns t' b count' := by
              intro ns
              induction ns with
              | nil => intro t' count'; rfl
              | cons n rest ihn =>
                intro t' count'
                unfold goCands
                by_cases hq : count' < limit
                · rw [if_pos hq, if_pos hq]
                  have hblanks := numBlanks_setCell b size r c n hr hc
                    hblank hd
                  have e1 : backtrackF g size br bc limit m t'
                      (setCell b r c (some n)) count'
                      = backtrackF g size br bc limit (numBlanks b size) t'
                        (setCell b r c (some n)) count' := by
                    rw [ih m (by omega) t' _ count'
                        (dims_setCell _ _ _ _ _ hd) (by omega),
                      ih (numBlanks b size) (by omega) t' _ count'
                        (dims_setCell _ _ _ _ _ hd) (by omega)]
                  rw [e1]
                  have hres := backtrackF_board g size br bc limit
                    (numBlanks b size) t' (setCell b r c (some n)) count'
                  rw [hres, setCell_setCell_self,
                    setCell_none_self b r c hblank]
                  exact ihn _ _
                · rw [if_neg hq, if_neg hq]
            exact hloop _ _ _

/-! ### The empty grid and concrete full solutions -/

theorem emptyBoard_getCell (size r c : ℕ) :
    getCell (emptyBoard size) r c = none := by
  unfold getCell emptyBoard
  by_cases hr : r < size
  · have h1 : (List.replicate size (List.replicate size (none : Cell))).getD r []
        = List.replicate size (none : Cell) := by
      rw [List.getD_eq_getElem _ _ (by simpa using hr), List.getElem_replicate]
    rw [h1]
    by_cases hc : c < size
    · rw [List.getD_eq_getElem _ _ (by simpa using hc), List.getElem_replicate]
    · rw [List.getD_of_length_le _ _ _ (by simpa using hc)]
  · have h1 : (List.replicate size (List.replicate size (none : Cell))).getD r []
        = [] := List.getD_of_length_le _ _ _ (by simpa using hr)
    rw [h1]
    rfl

theorem emptyBoard_dims (size : ℕ) : dims (emptyBoard size) size := by
  constructor
  · simp [emptyBoard]
  · intro row hrow
    rw [List.eq_of_mem_replicate hrow]
    simp

theorem emptyBoard_ok (size br bc : ℕ) : okBoard (emptyBoard size) size br bc := by
  refine ⟨emptyBoard_dims size, ?_, ?_⟩
  · intro p _ q _ _ _
    rw [emptyBoard_getCell]
    exact Or.inl rfl
  · intro p _
    rw [emptyBoard_getCell]
    exact trivial

/-- A concrete complete legal 4×4 grid. -/
def sol4 : Board :=
  [[some 1, some 2, some 3, some 4],
   [some 3, some 4, some 1, some 2],
   [some 2, some 1, some 4, some 3],
   [some 4, some 3, some 2, some 1]]

/-- A concrete complete legal 6×6 grid (boxes 2×3). -/
def sol6 : Board :=
  [[some 1, some 2, some 3, some 4, some 5, some 6],
   [some 4, some 5, some 6, some 1, some 2, some 3],
   [some 2, some 3, some 1, some 5, some 6, some 4],
   [some 5, some 6, some 4, some 2, some 3, some 1],
   [some 3, some 1, some 2, some 6, some 4, some 5],
   [some 6, some 4, some 5, some 3, some 1, some 2]]

/-- A concrete complete legal 9×9 grid. -/
def sol9 : Board :=
  [[some 1, some 2, some 3, some 4, some 5, some 6, some 7, some 8, some 9],
   [some 4, some 5, some 6, some 7, some 8, some 9, some 1, some 2, some 3],
   [some 7, some 8, some 9, some 1, some 2, some 3, some 4, some 5, some 6],
   [some 2, some 3, some 4, some 5, some 6, some 7, some 8, some 9, some 1],
   [some 5, some 6, some 7, some 8, some 9, some 1, some 2, some 3, some 4],
   [some 8, some 9, some 1, some 2, some 3, some 4, some 5, some 6, some 7],
   [some 3, some 4, some 5, some 6, some 7, some 8, some 9, some 1, some 2],
   [some 6, some 7, some 8, some 9, some 1, some 2, some 3, some 4, some 5],
   [some 9, some 1, some 2, some 3, some 4, some 5, some 6, some 7, some 8]]

theorem sol4_solution : solutionOf sol4 (emptyBoard 4) 4 2 2 := by
  refine ⟨by decide, ?_, by decide⟩
  intro r c v h
  rw [emptyBoard_getCell] at h
  cases h

theorem sol6_solution : solutionOf sol6 (emptyBoard 6) 6 2 3 := by
  refine ⟨by decide, ?_, by decide⟩
  intro r c v h
  rw [emptyBoard_getCell] at h
  cases h

theorem sol9_solution : solutionOf sol9 (emptyBoard 9) 9 3 3 := by
  refine ⟨by decide, ?_, by decide⟩
  intro r c v h
  rw [emptyBoard_getCell] at h
  cases h

/-! ### The seeded grid generator produces a legal full grid -/

theorem setCell_out_of_range {b : Board} {size r c : ℕ} (hd : dims b size)
    (h : size ≤ r ∨ size ≤ c) (v : Cell) : setCell b r c v = b := by
  obtain ⟨hl, hrow⟩ := hd
  rcases h with h | h
  · unfold setCell
    exact List.set_of_length_le _ _ _ (by omega)
  · unfold setCell
    by_cases hr : r < b.length
    · have hrl : (b.getD r []).length = size :=
        hrow _ (List.getD_mem_of_lt b r [] hr)
      have hin : (b.getD r []).set c v = b.getD r [] :=
        List.set_of_length_le _ _ _ (by omega)
      rw [hin]
      exact List.set_getD_self _ _ _ hr
    · exact List.set_of_length_le _ _ _ (by omega)

theorem placeFirstValid_ok {b : Board} {size br bc row col : ℕ}
    (hs : sizeBoxOk size br bc) (hok : okBoard b size br bc)
    (hblank : getCell b row col = none) :
    ∀ ns : List ℕ, (∀ n ∈ ns, 1 ≤ n ∧ n ≤ size) →
    okBoard (placeFirstValid b row col size br bc ns) size br bc := by
  intro ns
  induction ns with
  | nil => intro _; exact hok
  | cons n rest ih =>
    intro hbounds
    unfold placeFirstValid
    by_cases hv : isValid b row col n size br bc
    · rw [if_pos hv]
      by_cases hrange : row < size ∧ col < size
      · exact okBoard_setCell hs hok hrange.1 hrange.2 hblank
          ((isValid_iff _ _ _ _ _ _ _).1 hv)
          (hbounds n (List.mem_cons_self n rest)).1
          (hbounds n (List.mem_cons_self n rest)).2
      · rw [setCell_out_of_range hok.1 (by omega) _]
        exact hok
    · rw [if_neg hv]
      exact ih (fun m hm => hbounds m (List.mem_cons_of_mem _ hm))

theorem seedLoop_ok {g : RNG} {size br bc : ℕ} (hs : sizeBoxOk size br bc) :
    ∀ (i t : ℕ) (b : Board), okBoard b size br bc →
    okBoard (seedLoop g size br bc i t b).1 size br bc := by
  intro i
  induction i with
  | zero => intro t b hok; exact hok
  | succ i ih =>
    intro t b hok
    unfold seedLoop
    by_cases hb : getCell b (g t size) (g (t + 1) size) = none
    · rw [if_pos hb]
      apply ih
      apply placeFirstValid_ok hs hok hb
      intro n hn
      exact (mem_natsOneTo size n).1
        ((mem_shuffle g (t + 2) (natsOneTo size) n).1 hn)
    · rw [if_neg hb]
      exact ih _ b hok

/-- `generateSolvedGrid` always produces a complete legal grid of the
right dimensions (using the fallback to the empty grid when the seeded
solve fails). -/
theorem generateSolvedGrid_legal (g : RNG) (t size br bc : ℕ)
    (hs : sizeBoxOk size br bc)
    (hb1 : (getBoxDims size).1 = br) (hb2 : boxColsNat size = bc)
    (hex : ∃ s, solutionOf s (emptyBoard size) size br bc) :
    legalFull (generateSolvedGrid g t size).1 size br bc ∧
    dims (generateSolvedGrid g t size).1 size := by
  unfold generateSolvedGrid
  rw [hb1, hb2]
  have hok0 : okBoard (seedLoop g size br bc (min size 6) t
      (emptyBoard size)).1 size br bc :=
    seedLoop_ok hs _ _ _ (emptyBoard_ok size br bc)
  by_cases hflag : (solveBoard g (seedLoop g size br bc (min size 6) t
      (emptyBoard size)).2 (seedLoop g size br bc (min size 6) t
        (emptyBoard size)).1 size br bc).2.1 = true
  · rw [if_pos hflag]
    obtain ⟨hl, _, hd⟩ := solveBoardF_sound g size br bc hs _ _ _ hok0 hflag
    exact ⟨hl, hd⟩
  · rw [if_neg hflag]
    have hflag2 : (solveBoard g (solveBoard g (seedLoop g size br bc
        (min size 6) t (emptyBoard size)).2 (seedLoop g size br bc
          (min size 6) t (emptyBoard size)).1 size br bc).2.2
        (emptyBoard size) size br bc).2.1 = true := by
      apply solveBoardF_complete g size br bc hs _ _ _
        (emptyBoard_ok size br bc) (by omega) hex
    obtain ⟨hl, _, hd⟩ := solveBoardF_sound g size br bc hs _ _ _
      (emptyBoard_ok size br bc) hflag2
    exact ⟨hl, hd⟩

/-! ### Carving: removals, reverts, and their effect on the puzzle -/

theorem setCell_noop_of_out {b : Board} {r c : ℕ} (v : Cell)
    (h : ¬(r < b.length ∧ c < (b.getD r []).length)) : setCell b r c v = b := by
  unfold setCell
  by_cases hr : r < b.length
  · have hc : (b.getD r []).length ≤ c := by omega
    have hin : (b.getD r []).set c v = b.getD r [] :=
      List.set_of_length_le _ _ _ hc
    rw [hin]
    exact List.set_getD_self _ _ _ hr
  · exact List.set_of_length_le _ _ _ (by omega)

theorem getCell_after_blank {b : Board} {r c q1 q2 v : ℕ}
    (h : getCell (setCell b r c none) q1 q2 = some v) :
    getCell b q1 q2 = some v := by
  by_cases he : (r, c) = (q1, q2)
  · have e1 : r = q1 := congrArg Prod.fst he
    have e2 : c = q2 := congrArg Prod.snd he
    subst e1
    subst e2
    by_cases hin : r < b.length ∧ c < (b.getD r []).length
    · rw [getCell_setCell_self b r c none hin.1 hin.2] at h
      cases h
    · rw [setCell_noop_of_out none hin] at h
      exact h
  · rw [getCell_setCell_ne _ _ _ _ _ _ he] at h
    exact h

theorem tryRemove_of_blank {st : Board × List (ℕ × ℕ × Cell)} {a b2 : ℕ}
    (h : getCell st.1 a b2 = none) : tryRemove st a b2 = st := by
  unfold tryRemove
  rw [if_pos h]

theorem tryRemove_sub {st : Board × List (ℕ × ℕ × Cell)} {a b q1 q2 v : ℕ}
    (h : getCell (tryRemove st a b).1 q1 q2 = some v) :
    getCell st.1 q1 q2 = some v := by
  unfold tryRemove at h
  by_cases hb : getCell st.1 a b = none
  · rw [if_pos hb] at h
    exact h
  · rw [if_neg hb] at h
    exact getCell_after_blank h

theorem tryRemove_other {st : Board × List (ℕ × ℕ × Cell)} {a b q1 q2 : ℕ}
    (hne : (a, b) ≠ (q1, q2)) :
    getCell (tryRemove st a b).1 q1 q2 = getCell st.1 q1 q2 := by
  unfold tryRemove
  by_cases hb : getCell st.1 a b = none
  · rw [if_pos hb]
  · rw [if_neg hb]
    exact getCell_setCell_ne _ _ _ _ _ _ hne

theorem tryRemove_dims {st : Board × List (ℕ × ℕ × Cell)} {size a b : ℕ}
    (hd : dims st.1 size) : dims (tryRemove st a b).1 size := by
  unfold tryRemove
  by_cases hb : getCell st.1 a b = none
  · rw [if_pos hb]
    exact hd
  · rw [if_neg hb]
    exact dims_setCell _ _ _ _ _ hd

theorem revert_dims {size : ℕ} :
    ∀ (l : List (ℕ × ℕ × Cell)) (b : Board), dims b size →
    dims (revert b l) size := by
  intro l
  induction l with
  | nil => intro b hd; exact hd
  | cons e rest ih =>
    intro b hd
    unfold revert at *
    exact ih _ (dims_setCell _ _ _ _ _ hd)

/-- Rejecting a single-cell removal restores the puzzle exactly. -/
theorem revert_restores_single (b : Board) (r c : ℕ) :
    revert (tryRemove (b, []) r c).1 (tryRemove (b, []) r c).2 = b := by
  unfold tryRemove
  by_cases hb : getCell b r c = none
  · rw [if_pos (by simpa using hb)]
    rfl
  · rw [if_neg (by simpa using hb)]
    show revert (setCell b r c none) [(r, c, getCell b r c)] = b
    unfold revert
    show setCell (setCell b r c none) r c (getCell b r c) = b
    rw [setCell_setCell_self, setCell_getCell_self]

/-- Rejecting a symmetric-pair removal restores the puzzle exactly. -/
theorem revert_restores_pair (b : Board) (r c pr pc : ℕ)
    (hpair : (r, c) ≠ (pr, pc)) :
    revert (tryRemove (tryRemove (b, []) r c) pr pc).1
      (tryRemove (tryRemove (b, []) r c) pr pc).2 = b := by
  by_cases hb1 : getCell b r c = none
  · have h0 : tryRemove (b, []) r c = (b, []) := tryRemove_of_blank hb1
    rw [h0]
    exact revert_restores_single b pr pc
  · have h1 : tryRemove (b, []) r c
        = (setCell b r c none, [(r, c, getCell b r c)]) := by
      unfold tryRemove
      rw [if_neg (by simpa using hb1)]
      rfl
    rw [h1]
    have hcell : getCell (setCell b r c none) pr pc = getCell b pr pc :=
      getCell_setCell_ne _ _ _ _ _ _ hpair
    by_cases hb2 : getCell b pr pc = none
    · have h2 : tryRemove (setCell b r c none, [(r, c, getCell b r c)]) pr pc
          = (setCell b r c none, [(r, c, getCell b r c)]) :=
        tryRemove_of_blank (hcell.trans hb2)
      rw [h2]
      show setCell (setCell b r c none) r c (getCell b r c) = b
      rw [setCell_setCell_self, setCell_getCell_self]
    · have h2 : tryRemove (setCell b r c none, [(r, c, getCell b r c)]) pr pc
          = (setCell (setCell b r c none) pr pc none,
            [(r, c, getCell b r c), (pr, pc, getCell b pr pc)]) := by
        unfold tryRemove
        rw [if_neg (show ¬getCell (setCell b r c none) pr pc = none from by
          rw [hcell]; exact hb2), hcell]
        rfl
      rw [h2]
      show setCell (setCell (setCell (setCell b r c none) pr pc none) r c
        (getCell b r c)) pr pc (getCell b pr pc) = b
      rw [setCell_comm _ _ _ _ _ _ _ hpair, setCell_setCell_self, ← hcell,
        setCell_getCell_self, setCell_setCell_self, setCell_getCell_self]

/-! ### One carving iteration -/

theorem carveStep_seen_sub (g : RNG) (size br bc : ℕ) (s : CarveState)
    (rc : ℕ × ℕ) : ∀ q ∈ s.seen, q ∈ (carveStep g size br bc s rc).seen := by
  intro q hq
  unfold carveStep
  by_cases hblank : getCell s.puzzle rc.1 rc.2 = none
  · rw [if_pos hblank]
    exact hq
  · rw [if_neg hblank]
    by_cases hseen : (rc.1, rc.2) ∈ s.seen ∨
        ((decide (size - 1 - rc.1 ≠ rc.1) || decide (size - 1 - rc.2 ≠ rc.2))
          = true ∧ (size - 1 - rc.1, size - 1 - rc.2) ∈ s.seen)
    · rw [if_pos hseen]
      exact hq
    · rw [if_neg hseen]
      by_cases hcnt : 2 ≤ (countSolutionsRun g s.t
          (if (decide (size - 1 - rc.1 ≠ rc.1) ||
              decide (size - 1 - rc.2 ≠ rc.2)) = true then
            tryRemove (tryRemove (s.puzzle, []) rc.1 rc.2)
              (size - 1 - rc.1) (size - 1 - rc.2)
          else tryRemove (s.puzzle, []) rc.1 rc.2).1 size br bc 2).2.1
      · rw [if_pos hcnt]
        dsimp only
        by_cases hpd : (decide (size - 1 - rc.1 ≠ rc.1) ||
            decide (size - 1 - rc.2 ≠ rc.2)) = true
        · rw [if_pos hpd]
          exact List.mem_cons_of_mem _ (List.mem_cons_of_mem _ hq)
        · rw [if_neg hpd]
          exact List.mem_cons_of_mem _ hq
      · rw [if_neg hcnt]
        dsimp only
        by_cases hpd : (decide (size - 1 - rc.1 ≠ rc.1) ||
            decide (size - 1 - rc.2 ≠ rc.2)) = true
        · rw [if_pos hpd]
          exact List.mem_cons_of_mem _ (List.mem_cons_of_mem _ hq)
        · rw [if_neg hpd]
          exact List.mem_cons_of_mem _ hq

theorem carveStep_dims (g : RNG) (size br bc : ℕ) (s : CarveState)
    (rc : ℕ × ℕ) (hd : dims s.puzzle size) :
    dims (carveStep g size br bc s rc).puzzle size := by
  unfold carveStep
  by_cases hblank : getCell s.puzzle rc.1 rc.2 = none
  · rw [if_pos hblank]
    exact hd
  · rw [if_neg hblank]
    by_cases hseen : (rc.1, rc.2) ∈ s.seen ∨
        ((decide (size - 1 - rc.1 ≠ rc.1) || decide (size - 1 - rc.2 ≠ rc.2))
          = true ∧ (size - 1 - rc.1, size - 1 - rc.2) ∈ s.seen)
    · rw [if_pos hseen]
      exact hd
    · rw [if_neg hseen]
      have hd2 : dims (if (decide (size - 1 - rc.1 ≠ rc.1) ||
          decide (size - 1 - rc.2 ≠ rc.2)) = true then
            tryRemove (tryRemove (s.puzzle, []) rc.1 rc.2)
              (size - 1 - rc.1) (size - 1 - rc.2)
          else tryRemove (s.puzzle, []) rc.1 rc.2).1 size := by
        by_cases hpd : (decide (size - 1 - rc.1 ≠ rc.1) ||
            decide (size - 1 - rc.2 ≠ rc.2)) = true
        · rw [if_pos hpd]
          exact tryRemove_dims (tryRemove_dims hd)
        · rw [if_neg hpd]
          exact tryRemove_dims hd
      by_cases hcnt : 2 ≤ (countSolutionsRun g s.t
          (if (decide (size - 1 - rc.1 ≠ rc.1) ||
              decide (size - 1 - rc.2 ≠ rc.2)) = true then
            tryRemove (tryRemove (s.puzzle, []) rc.1 rc.2)
              (size - 1 - rc.1) (size - 1 - rc.2)
          else tryRemove (s.puzzle, []) rc.1 rc.2).1 size br bc 2).2.1
      · rw [if_pos hcnt]
        exact revert_dims _ _ hd2
      · rw [if_neg hcnt]
        exact hd2

theorem carveStep_spec (g : RNG) (size br bc : ℕ) (s : CarveState)
    (rc : ℕ × ℕ) :
    (carveStep g size br bc s rc).puzzle = s.puzzle ∨
    ((∀ a b2 v, getCell (carveStep g size br bc s rc).puzzle a b2 = some v →
        getCell s.puzzle a b2 = some v) ∧
      countSolutions g s.t (carveStep g size br bc s rc).puzzle size br bc 2
        ≤ 1) := by
  unfold carveStep
  by_cases hblank : getCell s.puzzle rc.1 rc.2 = none
  · rw [if_pos hblank]
    exact Or.inl rfl
  · rw [if_neg hblank]
    by_cases hseen : (rc.1, rc.2) ∈ s.seen ∨
        ((decide (size - 1 - rc.1 ≠ rc.1) || decide (size - 1 - rc.2 ≠ rc.2))
          = true ∧ (size - 1 - rc.1, size - 1 - rc.2) ∈ s.seen)
    · rw [if_pos hseen]
      exact Or.inl rfl
    · rw [if_neg hseen]
      by_cases hcnt : 2 ≤ (countSolutionsRun g s.t
          (if (decide (size - 1 - rc.1 ≠ rc.1) ||
              decide (size - 1 - rc.2 ≠ rc.2)) = true then
            tryRemove (tryRemove (s.puzzle, []) rc.1 rc.2)
              (size - 1 - rc.1) (size - 1 - rc.2)
          else tryRemove (s.puzzle, []) rc.1 rc.2).1 size br bc 2).2.1
      · rw [if_pos hcnt]
        left
        dsimp only
        by_cases hpd : (decide (size - 1 - rc.1 ≠ rc.1) ||
            decide (size - 1 - rc.2 ≠ rc.2)) = true
        · rw [if_pos hpd]
          have hne : (rc.1, rc.2) ≠ (size - 1 - rc.1, size - 1 - rc.2) := by
            simp only [Bool.or_eq_true, decide_eq_true_eq] at hpd
            intro he
            have e1 := congrArg Prod.fst he
            have e2 := congrArg Prod.snd he
            simp only at e1 e2
            rcases hpd with h | h
            · exact h e1.symm
            · exact h e2.symm
          exact revert_restores_pair s.puzzle rc.1 rc.2 _ _ hne
        · rw [if_neg hpd]
          exact revert_restores_single s.puzzle rc.1 rc.2
      · rw [if_neg hcnt]
        right
        dsimp only
        constructor
        · intro a b2 v h
          by_cases hpd : (decide (size - 1 - rc.1 ≠ rc.1) ||
              decide (size - 1 - rc.2 ≠ rc.2)) = true
          · rw [if_pos hpd] at h
            exact tryRemove_sub (tryRemove_sub h)
          · rw [if_neg hpd] at h
            exact tryRemove_sub h
        · show (countSolutionsRun g s.t _ size br bc 2).2.1 ≤ 1
          omega

theorem carveStep_keeps_filled (g : RNG) (size br bc : ℕ) (s : CarveState)
    (rc q : ℕ × ℕ) (hq : q ∈ s.seen)
    (hf : getCell s.puzzle q.1 q.2 ≠ none) :
    getCell (carveStep g size br bc s rc).puzzle q.1 q.2 ≠ none := by
  unfold carveStep
  by_cases hblank : getCell s.puzzle rc.1 rc.2 = none
  · rw [if_pos hblank]
    exact hf
  · rw [if_neg hblank]
    by_cases hseen : (rc.1, rc.2) ∈ s.seen ∨
        ((decide (size - 1 - rc.1 ≠ rc.1) || decide (size - 1 - rc.2 ≠ rc.2))
          = true ∧ (size - 1 - rc.1, size - 1 - rc.2) ∈ s.seen)
    · rw [if_pos hseen]
      exact hf
    · rw [if_neg hseen]
      push_neg at hseen
      have hq1 : (rc.1, rc.2) ≠ (q.1, q.2) := by
        intro he
        apply hseen.1
        rw [he, Prod.mk.eta]
        exact hq
      have hsame : getCell (if (decide (size - 1 - rc.1 ≠ rc.1) ||
          decide (size - 1 - rc.2 ≠ rc.2)) = true then
            tryRemove (tryRemove (s.puzzle, []) rc.1 rc.2)
              (size - 1 - rc.1) (size - 1 - rc.2)
          else tryRemove (s.puzzle, []) rc.1 rc.2).1 q.1 q.2
          = getCell s.puzzle q.1 q.2 := by
        by_cases hpd : (decide (size - 1 - rc.1 ≠ rc.1) ||
            decide (size - 1 - rc.2 ≠ rc.2)) = true
        · rw [if_pos hpd]
          have hq2 : (size - 1 - rc.1, size - 1 - rc.2) ≠ (q.1, q.2) := by
            intro he
            apply hseen.2 hpd
            rw [he, Prod.mk.eta]
            exact hq
          rw [tryRemove_other hq2, tryRemove_other hq1]
        · rw [if_neg hpd]
          rw [tryRemove_other hq1]
      by_cases hcnt : 2 ≤ (countSolutionsRun g s.t
          (if (decide (size - 1 - rc.1 ≠ rc.1) ||
              decide (size - 1 - rc.2 ≠ rc.2)) = true then
            tryRemove (tryRemove (s.puzzle, []) rc.1 rc.2)
              (size - 1 - rc.1) (size - 1 - rc.2)
          else tryRemove (s.puzzle, []) rc.1 rc.2).1 size br bc 2).2.1
      · rw [if_pos hcnt]
        dsimp only
        by_cases hpd : (decide (size - 1 - rc.1 ≠ rc.1) ||
            decide (size - 1 - rc.2 ≠ rc.2)) = true
        · rw [if_pos hpd]
          have hne : (rc.1, rc.2) ≠ (size - 1 - rc.1, size - 1 - rc.2) := by
            simp only [Bool.or_eq_true, decide_eq_true_eq] at hpd
            intro he
            have e1 := congrArg Prod.fst he
            have e2 := congrArg Prod.snd he
            simp only at e1 e2
            rcases hpd with h | h
            · exact h e1.symm
            · exact h e2.symm
          rw [revert_restores_pair s.puzzle rc.1 rc.2 _ _ hne]
          exact hf
        · rw [if_neg hpd]
          rw [revert_restores_single s.puzzle rc.1 rc.2]
          exact hf
      · rw [if_neg hcnt]
        dsimp only
        rw [hsame]
        exact hf

/-! ### The carving loop preserves uniqueness -/

theorem carveLoop_keeps_filled (g : RNG) (size br bc target : ℕ) :
    ∀ (L : List (ℕ × ℕ)) (s : CarveState) (q : ℕ × ℕ),
    q ∈ s.seen → getCell s.puzzle q.1 q.2 ≠ none →
    getCell (carveLoop g size br bc target L s).puzzle q.1 q.2 ≠ none := by
  intro L
  induction L with
  | nil =>
    intro s q _ hf
    exact hf
  | cons rc rest ih =>
    intro s q hq hf
    unfold carveLoop
    by_cases hb : s.blanks < target
    · rw [if_pos hb]
      exact ih _ q (carveStep_seen_sub g size br bc s rc q hq)
        (carveStep_keeps_filled g size br bc s rc q hq hf)
    · rw [if_neg hb]
      exact hf

/-- A sub-board of a legal full grid is well-formed. -/
theorem okBoard_of_subBoard {p sol : Board} {size br bc : ℕ}
    (hs : sizeBoxOk size br bc) (hd : dims p size)
    (hsub : ∀ a b2 v, getCell p a b2 = some v → getCell sol a b2 = some v)
    (hleg : legalFull sol size br bc) : okBoard p size br bc := by
  obtain ⟨hfull, hrange, hcons⟩ := legalFull_split hs hleg
  refine ⟨hd, ?_, ?_⟩
  · intro a ha b2 hb2 hne hsu
    rcases hga : getCell p a.1 a.2 with _ | v
    · exact Or.inl rfl
    · right
      intro heq
      have hgb : getCell p b2.1 b2.2 = some v := heq.symm
      have hsa := hsub _ _ _ hga
      have hsb := hsub _ _ _ hgb
      rcases hcons a ha b2 hb2 hne hsu with hc | hc
      · rw [hsa] at hc
        cases hc
      · apply hc
        rw [hsa, hsb]
  · intro a ha
    rcases hga : getCell p a.1 a.2 with _ | v
    · exact trivial
    · have hr := hrange a ha
      rw [hsub _ _ _ hga] at hr
      exact hr

theorem carveStep_inv (g : RNG) (size br bc : ℕ) (hs : sizeBoxOk size br bc)
    {sol : Board} (hleg : legalFull sol size br bc) (hdsol : dims sol size)
    (s : CarveState) (rc : ℕ × ℕ) (hd : dims s.puzzle size)
    (hsub : ∀ a b2 v, getCell s.puzzle a b2 = some v →
      getCell sol a b2 = some v)
    (hk : numSolutions s.puzzle size br bc = 1) :
    dims (carveStep g size br bc s rc).puzzle size ∧
    (∀ a b2 v, getCell (carveStep g size br bc s rc).puzzle a b2 = some v →
      getCell sol a b2 = some v) ∧
    numSolutions (carveStep g size br bc s rc).puzzle size br bc = 1 := by
  have hd' := carveStep_dims g size br bc s rc hd
  rcases carveStep_spec g size br bc s rc with heq | ⟨hsub', hcnt⟩
  · rw [heq]
    exact ⟨hd, hsub, hk⟩
  · have hsub2 : ∀ a b2 v,
        getCell (carveStep g size br bc s rc).puzzle a b2 = some v →
        getCell sol a b2 = some v :=
      fun a b2 v h => hsub _ _ _ (hsub' a b2 v h)
    refine ⟨hd', hsub2, ?_⟩
    have hok' : okBoard (carveStep g size br bc s rc).puzzle size br bc :=
      okBoard_of_subBoard hs hd' hsub2 hleg
    have hmin := countSolutions_eq_min g s.t _ size br bc 2 hs hok'
    rw [hmin] at hcnt
    have hpos : 0 < numSolutions (carveStep g size br bc s rc).puzzle
        size br bc :=
      numSolutions_pos hs hd' ⟨hdsol, fun a b2 v h => hsub2 a b2 v h, hleg⟩
    omega

theorem carveLoop_inv (g : RNG) (size br bc target : ℕ)
    (hs : sizeBoxOk size br bc) {sol : Board}
    (hleg : legalFull sol size br bc) (hdsol : dims sol size) :
    ∀ (L : List (ℕ × ℕ)) (s : CarveState), dims s.puzzle size →
    (∀ a b2 v, getCell s.puzzle a b2 = some v → getCell sol a b2 = some v) →
    numSolutions s.puzzle size br bc = 1 →
    dims (carveLoop g size br bc target L s).puzzle size ∧
    (∀ a b2 v, getCell (carveLoop g size br bc target L s).puzzle a b2
      = some v → getCell sol a b2 = some v) ∧
    numSolutions (carveLoop g size br bc target L s).puzzle size br bc = 1 := by
  intro L
  induction L with
  | nil =>
    intro s hd hsub hk
    exact ⟨hd, hsub, hk⟩
  | cons rc rest ih =>
    intro s hd hsub hk
    unfold carveLoop
    by_cases hb : s.blanks < target
    · rw [if_pos hb]
      obtain ⟨hd', hsub', hk'⟩ :=
        carveStep_inv g size br bc hs hleg hdsol s rc hd hsub hk
      exact ih _ hd' hsub' hk'
    · rw [if_neg hb]
      exact ⟨hd, hsub, hk⟩

/-- The generated puzzle: right dimensions, clue cells taken from the
stored legal solution, and exactly one legal completion. -/
theorem generateUniquePuzzle_spec (g : RNG) (t size br bc : ℕ)
    (hs : sizeBoxOk size br bc)
    (hb1 : (getBoxDims size).1 = br) (hb2 : boxColsNat size = bc)
    (hex : ∃ s, solutionOf s (emptyBoard size) size br bc) :
    dims (generateUniquePuzzle g t size).1 size ∧
    legalFull (generateUniquePuzzle g t size).2.1 size br bc ∧
    dims (generateUniquePuzzle g t size).2.1 size ∧
    (∀ a b2 v, getCell (generateUniquePuzzle g t size).1 a b2 = some v →
      getCell (generateUniquePuzzle g t size).2.1 a b2 = some v) ∧
    numSolutions (generateUniquePuzzle g t size).1 size br bc = 1 := by
  obtain ⟨hleg, hdfull⟩ := generateSolvedGrid_legal g t size br bc hs hb1 hb2 hex
  have hfull : boardFullP (generateSolvedGrid g t size).1 size :=
    (legalFull_split hs hleg).1
  have hk0 : numSolutions (generateSolvedGrid g t size).1 size br bc = 1 := by
    rw [numSolutions_full hfull, if_pos hleg]
  unfold generateUniquePuzzle
  rw [hb1, hb2]
  dsimp only
  obtain ⟨hd', hsub', hk'⟩ := carveLoop_inv g size br bc
    (targetBlanksOf size) hs hleg hdfull
    (shuffle g (generateSolvedGrid g t size).2 (cellsList size)).1
    { puzzle := (generateSolvedGrid g t size).1, seen := [], blanks := 0,
      t := (shuffle g (generateSolvedGrid g t size).2 (cellsList size)).2 }
    hdfull (fun _ _ _ h => h) hk0
  exact ⟨hd', hleg, hdfull, hsub', hk'⟩

/-! ### Concrete inputs for witnesses and counterexamples -/

/-- The deterministic randomness oracle whose every draw is 0. -/
def zeroG : RNG := fun _ _ => 0

/-- A full 4×4 grid with the out-of-range value 7 at (0,0): its filled
cells are mutually consistent (7 clashes with nothing) but not in range. -/
def bad4 : Board := setCell sol4 0 0 (some 7)

/-- The full 4×4 grid holding 1 everywhere: fully filled but illegal. -/
def allOnes4 : Board := List.replicate 4 (List.replicate 4 (some 1))

/-- A full 4×4 grid that is illegal (a 7 planted at (1,1)). -/
def full4Bad : Board := setCell sol4 1 1 (some 7)

/-- A 4×4 grid whose blank cell (0,0) has zero legal candidates: its row
holds 1,2,3, its column and box hold 4. -/
def dead4 : Board :=
  [[none, some 1, some 2, some 3],
   [some 4, none, none, none],
   [none, none, none, none],
   [none, none, none, none]]

/-- A 4×4 grid with a single clue at (0,0); blanking it leaves the empty
grid, which has far more than 2 completions. -/
def oneCell4 : Board :=
  [[some 1, none, none, none],
   [none, none, none, none],
   [none, none, none, none],
   [none, none, none, none]]

/-! ### Helper lemmas for the claim theorems -/

/-- The tentative removal of one carving iteration at `rc`: the cell and,
when different, its point-symmetric partner are blanked, recording the old
values.  This is the `st2` state of `carveStep` before `countSolutions`
judges it. -/
def carveTent (size : ℕ) (s : CarveState) (rc : ℕ × ℕ) :
    Board × List (ℕ × ℕ × Cell) :=
  if (decide (size - 1 - rc.1 ≠ rc.1) || decide (size - 1 - rc.2 ≠ rc.2))
      = true then
    tryRemove (tryRemove (s.puzzle, []) rc.1 rc.2)
      (size - 1 - rc.1) (size - 1 - rc.2)
  else tryRemove (s.puzzle, []) rc.1 rc.2

/-- On a list of filled cells the MRV scan never moves off its running
best. -/
theorem scanFrom_all_filled {b : Board} {size br bc : ℕ} :
    ∀ (L : List (ℕ × ℕ)) (best : Option (ℕ × ℕ × List ℕ)),
    (∀ p ∈ L, getCell b p.1 p.2 ≠ none) →
    scanFrom b size br bc L best = some best := by
  intro L
  induction L with
  | nil => intro best _; rfl
  | cons p rest ih =>
    intro best hL
    unfold scanFrom
    rw [if_neg (hL p (List.mem_cons_self p rest))]
    exact ih best fun q hq => hL q (List.mem_cons_of_mem p hq)

/-- A grid with blank count 0 has every cell of the region filled. -/
theorem filled_of_numBlanks_zero {b : Board} {size : ℕ}
    (h0 : numBlanks b size = 0) :
    ∀ p ∈ cellsList size, getCell b p.1 p.2 ≠ none := by
  intro p hp
  unfold numBlanks at h0
  have h := List.countP_eq_zero.mp h0 p hp
  simpa using h

/-- The seen set of the carving loop only grows. -/
theorem carveLoop_seen_sub (g : RNG) (size br bc target : ℕ) :
    ∀ (L : List (ℕ × ℕ)) (s : CarveState) (q : ℕ × ℕ), q ∈ s.seen →
    q ∈ (carveLoop g size br bc target L s).seen := by
  intro L
  induction L with
  | nil => intro s q hq; exact hq
  | cons rc rest ih =>
    intro s q hq
    unfold carveLoop
    by_cases hb : s.blanks < target
    · rw [if_pos hb]
      exact ih _ q (carveStep_seen_sub g size br bc s rc q hq)
    · rw [if_neg hb]
      exact hq

/-- Box-dimension values at the sizes of interest. -/
theorem sqrt_four : Nat.sqrt 4 = 2 := (Nat.eq_sqrt.mpr (by norm_num)).symm

theorem sqrt_five : Nat.sqrt 5 = 2 := (Nat.eq_sqrt.mpr (by norm_num)).symm

theorem sqrt_nine : Nat.sqrt 9 = 3 := (Nat.eq_sqrt.mpr (by norm_num)).symm

theorem getBoxDims_four : getBoxDims 4 = (2, 2) := by
  unfold getBoxDims
  rw [if_neg (by norm_num : ¬(4 : ℕ) = 6), sqrt_four]
  exact Prod.ext rfl (by push_cast; norm_num)

theorem getBoxDims_six : getBoxDims 6 = (2, 3) := by
  unfold getBoxDims
  rw [if_pos rfl]

theorem getBoxDims_nine : getBoxDims 9 = (3, 3) := by
  unfold getBoxDims
  rw [if_neg (by norm_num : ¬(9 : ℕ) = 6), sqrt_nine]
  exact Prod.ext rfl (by push_cast; norm_num)

theorem boxColsNat_four : boxColsNat 4 = 2 := by
  unfold boxColsNat
  rw [getBoxDims_four]
  decide

theorem boxColsNat_six : boxColsNat 6 = 3 := by
  unfold boxColsNat
  rw [getBoxDims_six]
  decide

theorem boxColsNat_nine : boxColsNat 9 = 3 := by
  unfold boxColsNat
  rw [getBoxDims_nine]
  decide

/-! ### The claims -/

/-- C1: for every call to `generateUniquePuzzle` at a supported size, the
returned puzzle has exactly one legal completion — `countSolutions` with
limit 2 returns exactly 1 on it, for any draws of the randomness oracle —
every clue of the puzzle equals the corresponding cell of the stored
solution grid, the stored solution is a completion of the puzzle, and it is
the unique one. -/
theorem C1_generated_puzzle_unique (g g2 : RNG) (t t2 size br bc : ℕ)
    (hsize : size = 4 ∧ br = 2 ∧ bc = 2 ∨ size = 6 ∧ br = 2 ∧ bc = 3 ∨
      size = 9 ∧ br = 3 ∧ bc = 3) :
    countSolutions g2 t2 (generateUniquePuzzle g t size).1 size br bc 2 = 1 ∧
    extendsB (generateUniquePuzzle g t size).2.1
      (generateUniquePuzzle g t size).1 ∧
    solutionOf (generateUniquePuzzle g t size).2.1
      (generateUniquePuzzle g t size).1 size br bc ∧
    ∀ s2, solutionOf s2 (generateUniquePuzzle g t size).1 size br bc →
      s2 = (generateUniquePuzzle g t size).2.1 := by
  have key : sizeBoxOk size br bc ∧ (getBoxDims size).1 = br ∧
      boxColsNat size = bc ∧
      ∃ s, solutionOf s (emptyBoard size) size br bc := by
    rcases hsize with ⟨h1, h2, h3⟩ | ⟨h1, h2, h3⟩ | ⟨h1, h2, h3⟩ <;>
      subst h1 <;> subst h2 <;> subst h3
    · exact ⟨by decide, by rw [getBoxDims_four], boxColsNat_four,
        ⟨sol4, sol4_solution⟩⟩
    · exact ⟨by decide, by rw [getBoxDims_six], boxColsNat_six,
        ⟨sol6, sol6_solution⟩⟩
    · exact ⟨by decide, by rw [getBoxDims_nine], boxColsNat_nine,
        ⟨sol9, sol9_solution⟩⟩
  obtain ⟨hs, hb1, hb2, hex⟩ := key
  obtain ⟨hd, hleg, hdsol, hsub, hk⟩ :=
    generateUniquePuzzle_spec g t size br bc hs hb1 hb2 hex
  have hok : okBoard (generateUniquePuzzle g t size).1 size br bc :=
    okBoard_of_subBoard hs hd hsub hleg
  have hsolOf : solutionOf (generateUniquePuzzle g t size).2.1
      (generateUniquePuzzle g t size).1 size br bc :=
    ⟨hdsol, fun r c v h => hsub r c v h, hleg⟩
  refine ⟨?_, fun r c v h => hsub r c v h, hsolOf, ?_⟩
  · rw [countSolutions_eq_min g2 t2 _ size br bc 2 hs hok, hk]
    omega
  · intro s2 h2
    exact numSolutions_le_one_unique hs hd (le_of_eq hk) h2 hsolOf

/-- Witness for C1 at size 4 with the all-zero oracle. -/
theorem C1_witness :
    countSolutions zeroG 0 (generateUniquePuzzle zeroG 0 4).1 4 2 2 2 = 1 ∧
    extendsB (generateUniquePuzzle zeroG 0 4).2.1
      (generateUniquePuzzle zeroG 0 4).1 ∧
    solutionOf (generateUniquePuzzle zeroG 0 4).2.1
      (generateUniquePuzzle zeroG 0 4).1 4 2 2 ∧
    ∀ s2, solutionOf s2 (generateUniquePuzzle zeroG 0 4).1 4 2 2 →
      s2 = (generateUniquePuzzle zeroG 0 4).2.1 :=
  C1_generated_puzzle_unique zeroG zeroG 0 0 4 2 2 (Or.inl ⟨rfl, rfl, rfl⟩)

/-- C2: on a well-formed grid — a `size × size` grid whose filled cells are
mutually consistent and hold values in `[1, size]` — `countSolutions`
returns `min limit k` with `k` the exact number of legal completions; the
result never exceeds the limit and equals it only when at least `limit`
completions exist.  Corrected: consistency of the filled cells alone is not
enough, the values must also be in range. -/
theorem C2_countSolutions_bounded_min (g : RNG) (t : ℕ) (b : Board)
    (size br bc limit : ℕ) (hs : sizeBoxOk size br bc)
    (hok : okBoard b size br bc) :
    countSolutions g t b size br bc limit
      = min limit (numSolutions b size br bc) ∧
    countSolutions g t b size br bc limit ≤ limit ∧
    (countSolutions g t b size br bc limit = limit →
      limit ≤ numSolutions b size br bc) := by
  have h := countSolutions_eq_min g t b size br bc limit hs hok
  exact ⟨h, by omega, by omega⟩

/-- Witness for C2 on a full legal 4×4 grid. -/
theorem C2_witness :
    sizeBoxOk 4 2 2 ∧ okBoard sol4 4 2 2 ∧
    (countSolutions zeroG 0 sol4 4 2 2 2
        = min 2 (numSolutions sol4 4 2 2) ∧
      countSolutions zeroG 0 sol4 4 2 2 2 ≤ 2 ∧
      (countSolutions zeroG 0 sol4 4 2 2 2 = 2 →
        2 ≤ numSolutions sol4 4 2 2)) :=
  ⟨by decide, by decide,
    C2_countSolutions_bounded_min zeroG 0 sol4 4 2 2 2 (by decide) (by decide)⟩

/-- C2 as frozen fails: `bad4` is a full 4×4 grid whose filled cells are
mutually consistent (the out-of-range 7 clashes with nothing), yet
`countSolutions` returns 1 while the exact number of legal completions is
0, so the result is not `min 2 0`. -/
theorem C2_counterexample :
    consistentOK bad4 4 2 2 ∧ dims bad4 4 ∧
    countSolutions zeroG 0 bad4 4 2 2 2 = 1 ∧
    numSolutions bad4 4 2 2 = 0 :=
  ⟨by decide, by decide, by decide, by decide⟩

/-- C3: at every supported size the solver succeeds on the empty grid for
any shuffle draws, and on any well-formed grid a `true` return leaves a
fully-populated legal grid extending the input.  Corrected: soundness needs
the input's filled cells to be consistent and in range — the solver never
validates already-filled cells, so on an arbitrary grid `true` does not
imply legality. -/
theorem C3_fill_empty_and_sound (g : RNG) (t size br bc : ℕ)
    (hsize : size = 4 ∧ br = 2 ∧ bc = 2 ∨ size = 6 ∧ br = 2 ∧ bc = 3 ∨
      size = 9 ∧ br = 3 ∧ bc = 3) :
    (solveBoard g t (emptyBoard size) size br bc).2.1 = true ∧
    ∀ (t2 : ℕ) (b : Board), okBoard b size br bc →
      (solveBoard g t2 b size br bc).2.1 = true →
      boardFullP (solveBoard g t2 b size br bc).1 size ∧
      legalFull (solveBoard g t2 b size br bc).1 size br bc ∧
      extendsB (solveBoard g t2 b size br bc).1 b ∧
      dims (solveBoard g t2 b size br bc).1 size := by
  have key : sizeBoxOk size br bc ∧
      ∃ s, solutionOf s (emptyBoard size) size br bc := by
    rcases hsize with ⟨h1, h2, h3⟩ | ⟨h1, h2, h3⟩ | ⟨h1, h2, h3⟩ <;>
      subst h1 <;> subst h2 <;> subst h3
    · exact ⟨by decide, sol4, sol4_solution⟩
    · exact ⟨by decide, sol6, sol6_solution⟩
    · exact ⟨by decide, sol9, sol9_solution⟩
  obtain ⟨hs, hex⟩ := key
  constructor
  · exact solveBoardF_complete g size br bc hs _ t _
      (emptyBoard_ok size br bc) le_rfl hex
  · intro t2 b hok hflag
    obtain ⟨hleg, hext, hd⟩ :=
      solveBoardF_sound g size br bc hs _ t2 b hok hflag
    exact ⟨(legalFull_split hs hleg).1, hleg, hext, hd⟩

/-- Witness for C3 at size 4. -/
theorem C3_witness :
    (solveBoard zeroG 0 (emptyBoard 4) 4 2 2).2.1 = true ∧
    ∀ (t2 : ℕ) (b : Board), okBoard b 4 2 2 →
      (solveBoard zeroG t2 b 4 2 2).2.1 = true →
      boardFullP (solveBoard zeroG t2 b 4 2 2).1 4 ∧
      legalFull (solveBoard zeroG t2 b 4 2 2).1 4 2 2 ∧
      extendsB (solveBoard zeroG t2 b 4 2 2).1 b ∧
      dims (solveBoard zeroG t2 b 4 2 2).1 4 :=
  C3_fill_empty_and_sound zeroG 0 4 2 2 (Or.inl ⟨rfl, rfl, rfl⟩)

/-- C3 as frozen fails: on the all-ones full 4×4 grid the solver returns
`true` (there is no blank cell to scan) and leaves that grid behind, which
is not legal. -/
theorem C3_counterexample :
    (solveBoard zeroG 0 allOnes4 4 2 2).2.1 = true ∧
    (solveBoard zeroG 0 allOnes4 4 2 2).1 = allOnes4 ∧
    ¬ legalFull allOnes4 4 2 2 :=
  ⟨by decide, by decide, by decide⟩

/-- C4: on every grid with zero blank cells `countSolutions` with limit 2
returns 1 unconditionally — the scan finds no blank cell and counts the
grid as one solution without ever checking the legality of the filled
cells.  Corrected: the frozen claim's `0` branch for illegal full grids
does not exist. -/
theorem C4_full_grid_count_one (g : RNG) (t : ℕ) (b : Board)
    (size br bc : ℕ) (h0 : numBlanks b size = 0) :
    countSolutions g t b size br bc 2 = 1 := by
  have hfilled := filled_of_numBlanks_zero h0
  unfold countSolutions countSolutionsRun
  rw [h0]
  show (backtrackF g size br bc 2 (0 + 1) t b 0).2.1 = 1
  unfold backtrackF
  rw [if_neg (by omega : ¬(2 : ℕ) ≤ 0),
    scanFrom_all_filled (cellsList size) none hfilled]

/-- Witness for C4 on a full (illegal) 4×4 grid. -/
theorem C4_witness :
    numBlanks full4Bad 4 = 0 ∧ countSolutions zeroG 0 full4Bad 4 2 2 2 = 1 :=
  ⟨by decide, C4_full_grid_count_one zeroG 0 full4Bad 4 2 2 (by decide)⟩

/-- C4 as frozen fails: `full4Bad` is fully filled and illegal, yet
`countSolutions` returns 1, not 0. -/
theorem C4_counterexample :
    numBlanks full4Bad 4 = 0 ∧ ¬ legalFull full4Bad 4 2 2 ∧
    countSolutions zeroG 0 full4Bad 4 2 2 2 = 1 :=
  ⟨by decide, by decide, by decide⟩

/-- C5: whenever the board at a recursive step of the bounded counter has a
blank cell with zero legal candidates, that step returns with the count
unchanged (no increment) and the board unchanged (a pure dead end), for any
fuel, draws, limit and running count. -/
theorem C5_dead_end_no_increment (g : RNG)
    (size br bc limit r c fuel t count : ℕ) (b : Board)
    (hr : r < size) (hc : c < size) (hcount : count < limit)
    (hblank : getCell b r c = none)
    (hdead : candidates b r c size br bc = []) :
    (backtrackF g size br bc limit fuel t b count).2.1 = count ∧
    (backtrackF g size br bc limit fuel t b count).1 = b :=
  ⟨backtrackF_count_deadCell g size br bc limit r c hr hc fuel t b count
      hblank hdead,
    backtrackF_board g size br bc limit fuel t b count⟩

/-- Witness for C5 on a 4×4 grid whose cell (0,0) is blank with no legal
candidate. -/
theorem C5_witness :
    (0 : ℕ) < 4 ∧ (0 : ℕ) < 2 ∧ getCell dead4 0 0 = none ∧
    candidates dead4 0 0 4 2 2 = [] ∧
    (backtrackF zeroG 4 2 2 2 17 0 dead4 0).2.1 = 0 ∧
    (backtrackF zeroG 4 2 2 2 17 0 dead4 0).1 = dead4 := by
  have h := C5_dead_end_no_increment zeroG 4 2 2 2 0 0 17 0 0 dead4
    (by decide) (by decide) (by decide) (by decide) (by decide)
  exact ⟨by decide, by decide, by decide, by decide, h.1, h.2⟩

/-- C6: once a coordinate is on the carving loop's seen set and holds a
clue, every later iteration of the same run keeps it on the seen set and
keeps the cell non-blank — settled cells are never blanked again. -/
theorem C6_settled_cells_stay (g : RNG) (size br bc target : ℕ)
    (L : List (ℕ × ℕ)) (s : CarveState) (q : ℕ × ℕ)
    (hq : q ∈ s.seen) (hf : getCell s.puzzle q.1 q.2 ≠ none) :
    q ∈ (carveLoop g size br bc target L s).seen ∧
    getCell (carveLoop g size br bc target L s).puzzle q.1 q.2 ≠ none :=
  ⟨carveLoop_seen_sub g size br bc target L s q hq,
    carveLoop_keeps_filled g size br bc target L s q hq hf⟩

/-- Witness for C6: a settled clue at (0,0) survives a later iteration. -/
theorem C6_witness :
    ((0, 0) : ℕ × ℕ) ∈ [((0, 0) : ℕ × ℕ)] ∧ getCell sol4 0 0 ≠ none ∧
    (((0, 0) : ℕ × ℕ) ∈ (carveLoop zeroG 4 2 2 9 [(1, 1)]
        { puzzle := sol4, seen := [(0, 0)], blanks := 0, t := 0 }).seen ∧
      getCell (carveLoop zeroG 4 2 2 9 [(1, 1)]
          { puzzle := sol4, seen := [(0, 0)], blanks := 0, t := 0 }).puzzle
        0 0 ≠ none) :=
  ⟨by decide, by decide,
    C6_settled_cells_stay zeroG 4 2 2 9 [(1, 1)]
      { puzzle := sol4, seen := [(0, 0)], blanks := 0, t := 0 } (0, 0)
      (by decide) (by decide)⟩

/-- C7: when a tentative removal is rejected — the cell is a clue, neither
it nor its symmetric partner is settled, and the bounded counter reports at
least 2 on the tentatively blanked grid — the carving iteration's revert
restores the puzzle exactly: the state after the iteration holds the same
grid as before it. -/
theorem C7_rejected_removal_reverts (g : RNG) (size br bc : ℕ)
    (s : CarveState) (rc : ℕ × ℕ)
    (hfill : ¬ getCell s.puzzle rc.1 rc.2 = none)
    (hseen : ¬((rc.1, rc.2) ∈ s.seen ∨
      ((decide (size - 1 - rc.1 ≠ rc.1) || decide (size - 1 - rc.2 ≠ rc.2))
          = true ∧ (size - 1 - rc.1, size - 1 - rc.2) ∈ s.seen)))
    (hrej : 2 ≤ (countSolutionsRun g s.t (carveTent size s rc).1
        size br bc 2).2.1) :
    (carveStep g size br bc s rc).puzzle = s.puzzle := by
  unfold carveTent at hrej
  unfold carveStep
  rw [if_neg hfill, if_neg hseen, if_pos hrej]
  dsimp only
  by_cases hpd : (decide (size - 1 - rc.1 ≠ rc.1) ||
      decide (size - 1 - rc.2 ≠ rc.2)) = true
  · rw [if_pos hpd]
    have hne : (rc.1, rc.2) ≠ (size - 1 - rc.1, size - 1 - rc.2) := by
      simp only [Bool.or_eq_true, decide_eq_true_eq] at hpd
      intro he
      have e1 := congrArg Prod.fst he
      have e2 := congrArg Prod.snd he
      simp only at e1 e2
      rcases hpd with h | h
      · exact h e1.symm
      · exact h e2.symm
    exact revert_restores_pair s.puzzle rc.1 rc.2 _ _ hne
  · rw [if_neg hpd]
    exact revert_restores_single s.puzzle rc.1 rc.2

/-- Witness for C7: blanking the single clue of `oneCell4` leaves the empty
grid, the counter reports 2, and the iteration restores the puzzle. -/
theorem C7_witness :
    ¬ getCell oneCell4 0 0 = none ∧
    2 ≤ (countSolutionsRun zeroG 0
        (carveTent 4 { puzzle := oneCell4, seen := [], blanks := 0, t := 0 }
          (0, 0)).1 4 2 2 2).2.1 ∧
    (carveStep zeroG 4 2 2
        { puzzle := oneCell4, seen := [], blanks := 0, t := 0 }
        (0, 0)).puzzle = oneCell4 :=
  ⟨by decide, by decide,
    C7_rejected_removal_reverts zeroG 4 2 2
      { puzzle := oneCell4, seen := [], blanks := 0, t := 0 } (0, 0)
      (by decide) (by decide) (by decide)⟩

/-- C8: the generation path performs no size validation — for every size
outside {4, 6, 9} the box-dimension helper still builds a decomposition,
`(⌊√size⌋, size / ⌊√size⌋)` for sizes other than 6 — while the module's
only size guard is the saved-game check, which rejects such sizes.
Corrected: no invalid-argument condition is signalled at generation. -/
theorem C8_no_size_guard_in_generation (size : ℕ)
    (hsize : size ≠ 4 ∧ size ≠ 6 ∧ size ≠ 9) :
    loadSizeValid size = false ∧
    getBoxDims size = (Nat.sqrt size, (size : ℚ) / (Nat.sqrt size : ℚ)) := by
  obtain ⟨h4, h6, h9⟩ := hsize
  constructor
  · unfold loadSizeValid
    simp [h4, h6, h9]
  · unfold getBoxDims
    rw [if_neg h6]

/-- Witness for C8 at the unsupported size 5. -/
theorem C8_witness :
    ((5 : ℕ) ≠ 4 ∧ (5 : ℕ) ≠ 6 ∧ (5 : ℕ) ≠ 9) ∧
    loadSizeValid 5 = false ∧
    getBoxDims 5 = (Nat.sqrt 5, (5 : ℚ) / (Nat.sqrt 5 : ℚ)) :=
  ⟨by decide, C8_no_size_guard_in_generation 5 (by decide)⟩

/-- C8 as frozen fails: at the unsupported size 5 the engine builds the box
decomposition (2, 5/2) — a non-integral column count — instead of
signalling an invalid argument; only the saved-game loader rejects 5. -/
theorem C8_counterexample :
    getBoxDims 5 = (2, (5 : ℚ) / 2) ∧ ((getBoxDims 5).2).den = 2 ∧
    loadSizeValid 5 = false ∧ loadSizeValid 4 = true := by
  have h5 : getBoxDims 5 = (2, (5 : ℚ) / 2) := by
    unfold getBoxDims
    rw [if_neg (by norm_num : ¬(5 : ℕ) = 6), sqrt_five]
    exact Prod.ext rfl (by push_cast; norm_num)
  refine ⟨h5, ?_, by decide, by decide⟩
  rw [h5]
  norm_num

/-- C9: the carving loop walks a shuffled list of exactly `size * size`
positions, and both recursive searches are rendered total by the blank
count — any fuel of at least `numBlanks + 1` computes the same result as
the canonical fuel, because every recursive call strictly decreases the
number of blank cells. -/
theorem C9_carving_terminates (g : RNG) (size br bc limit t f count : ℕ)
    (b : Board) (hd : dims b size) (hf : numBlanks b size + 1 ≤ f) :
    ((shuffle g t (cellsList size)).1).length = size * size ∧
    solveBoardF g size br bc f t b = solveBoard g t b size br bc ∧
    backtrackF g size br bc limit f t b count
      = backtrackF g size br bc limit (numBlanks b size + 1) t b count := by
  refine ⟨?_, ?_, backtrackF_stable g size br bc limit f t b count hd hf⟩
  · rw [(shuffle_perm g t (cellsList size)).length_eq, length_cellsList]
  · exact solveBoardF_stable g size br bc f t b hd hf

/-- Witness for C9 on the empty 4×4 grid with surplus fuel. -/
theorem C9_witness :
    dims (emptyBoard 4) 4 ∧ numBlanks (emptyBoard 4) 4 + 1 ≤ 20 ∧
    (((shuffle zeroG 0 (cellsList 4)).1).length = 4 * 4 ∧
      solveBoardF zeroG 4 2 2 20 0 (emptyBoard 4)
        = solveBoard zeroG 0 (emptyBoard 4) 4 2 2 ∧
      backtrackF zeroG 4 2 2 2 20 0 (emptyBoard 4) 0
        = backtrackF zeroG 4 2 2 2 (numBlanks (emptyBoard 4) 4 + 1) 0
            (emptyBoard 4) 0) :=
  ⟨by decide, by decide,
    C9_carving_terminates zeroG 4 2 2 2 0 20 0 (emptyBoard 4) (by decide)
      (by decide)⟩

/-- C10: one full run of the bounded counter hands back exactly the board
it was given — every tentative placement is undone, early-exit branches
included — so every cell reads the same before and after. -/
theorem C10_counter_preserves_board (g : RNG) (t : ℕ) (b : Board)
    (size br bc limit : ℕ) :
    (countSolutionsRun g t b size br bc limit).1 = b ∧
    ∀ r c, getCell (countSolutionsRun g t b size br bc limit).1 r c
      = getCell b r c := by
  have h := countSolutionsRun_board g t b size br bc limit
  exact ⟨h, fun r c => by rw [h]⟩

end JSGames.Sudoku
